import Mathlib

/-!
# Symbol table (`symtablehash.c`, `symtablelist.c`): embedding and properties

The C sources implement an associative container from C strings to `void *`
values, once as a resizable hash table with separate chaining and once as a
single linked list.  This file embeds the functions of both backends as pure
Lean functions on an explicit table state (namespaces `SymTableHash` and
`SymTableList`) and proves properties of them.

Modelling conventions

* A C string is the list of its bytes before the terminating NUL, so its
  bytes are non-zero and below 256 (`Key`).  `strcmp(a, b) == 0` is equality
  of these lists.
* A `void *` is a natural number (an address); `NULL` is `0`.
* A chain of `Binding` nodes linked through `pNext` is the list of the nodes
  in chain order; the bucket array `ppBuckets` is the list of its chains.
* `size_t` arithmetic of the hash is reduced modulo `2 ^ sizeBits`; the
  conversion of a plain `char` to `size_t` depends on the signedness of
  `char`; both are fields of `Target`.
* `uLength` counts heap nodes that are alive at the same time, so it stays far
  below `2 ^ sizeBits` and `uLength++` is modelled without wrap-around;
  `uLength--` runs only after a node was found and unlinked.
* Every call of `malloc`/`calloc` may fail; the outcome of each call is an
  explicit Boolean argument of the function that performs it.
-/

namespace SymTableHash

/-- Properties of the C implementation the code is compiled for: the width of
`size_t` in bits and whether plain `char` is a signed type. -/
structure Target where
  sizeBits : Nat
  charSigned : Bool
deriving DecidableEq

/-- C strings: the bytes before the terminating NUL. -/
abbrev Key : Type := { l : List Nat // ∀ c ∈ l, 0 < c ∧ c < 256 }

/-- The struct `Binding` without its `pNext` link (the link is the list
structure of the chain that holds the node). -/
structure Binding where
  pcKey : Key
  pvValue : Nat
deriving DecidableEq

/-- The struct `SymTable` of the hash backend. -/
structure SymTable where
  ppBuckets : List (List Binding)
  uBucketCount : Nat
  uLength : Nat
  iSizeIndex : Int
deriving DecidableEq

/-- The null pointer. -/
def NULL : Nat := 0

/-- The conversion `(size_t)pcKey[u]` of one byte of a key, read through a plain
`char`: a byte of 128 or more is a negative `char` when `char` is signed, and
converts to `2 ^ sizeBits - 256 + c`. -/
def charToSizeT (tg : Target) (c : Nat) : Nat :=
  if tg.charSigned && decide (128 ≤ c) then (2 ^ tg.sizeBits + c - 256) % 2 ^ tg.sizeBits
  else c % 2 ^ tg.sizeBits

/-- The loop of `SymTable_hash`: `uHash = uHash * HASH_MULTIPLIER + (size_t)pcKey[u]`
for each byte up to the NUL, in `size_t` arithmetic. -/
def hashLoop (tg : Target) : List Nat → Nat → Nat
  | [], uHash => uHash
  | c :: rest, uHash =>
    hashLoop tg rest ((uHash * (65599 % 2 ^ tg.sizeBits) + charToSizeT tg c) % 2 ^ tg.sizeBits)

/-- The function `SymTable_hash`. -/
def SymTable_hash (tg : Target) (pcKey : Key) (uBucketCount : Nat) : Nat :=
  hashLoop tg pcKey.val 0 % uBucketCount

/-- The function `SymTableHash_find`: the first node of the chain whose key equals `pcKey`,
or `none` for `NULL`. -/
def SymTableHash_find : List Binding → Key → Option Binding
  | [], _ => none
  | pCur :: pNext, pcKey =>
    if pCur.pcKey = pcKey then some pCur else SymTableHash_find pNext pcKey

/-- The constant table `kPrimeSizes`. -/
def kPrimeSizes : List Nat := [509, 1021, 2039, 4093, 8191, 16381, 32749, 65521]

/-- The inner `while` loop of `SymTableHash_maybeGrow`: each node of a chain, in
chain order, is pushed on the front of its chain in the new array. -/
def rehashChain (tg : Target) (uNewCount : Nat) :
    List Binding → List (List Binding) → List (List Binding)
  | [], ppNew => ppNew
  | pCur :: pNext, ppNew =>
    let uHashIdx := SymTable_hash tg pCur.pcKey uNewCount
    rehashChain tg uNewCount pNext (ppNew.set uHashIdx (pCur :: ppNew.getD uHashIdx []))

/-- The outer `for` loop of `SymTableHash_maybeGrow` over the given bucket indices. -/
def rehashBuckets (tg : Target) (uNewCount : Nat) (ppBuckets : List (List Binding)) :
    List Nat → List (List Binding) → List (List Binding)
  | [], ppNew => ppNew
  | i :: is, ppNew =>
    rehashBuckets tg uNewCount ppBuckets is (rehashChain tg uNewCount (ppBuckets.getD i []) ppNew)

/-- The function `SymTableHash_maybeGrow`; `callocOk` is the outcome of the `calloc` of the
new bucket array (consulted only when the table is about to grow). -/
def SymTableHash_maybeGrow (tg : Target) (oSymTable : SymTable) (callocOk : Bool) : SymTable :=
  if oSymTable.iSizeIndex ≥ (kPrimeSizes.length : Int) - 1 then oSymTable
  else if oSymTable.uLength ≤ oSymTable.uBucketCount then oSymTable
  else
    let uNewCount := kPrimeSizes.getD (oSymTable.iSizeIndex + 1).toNat 0
    if callocOk = false then oSymTable
    else
      { ppBuckets := rehashBuckets tg uNewCount oSymTable.ppBuckets
          (List.range oSymTable.uBucketCount) (List.replicate uNewCount [])
        uBucketCount := uNewCount
        uLength := oSymTable.uLength
        iSizeIndex := oSymTable.iSizeIndex + 1 }

/-- The function `SymTable_new`; the arguments are the outcomes of the `malloc` of the table
and of the `calloc` of the bucket array. -/
def SymTable_new (mallocOk callocOk : Bool) : Option SymTable :=
  if mallocOk = false then none
  else if callocOk = false then none
  else
    some { ppBuckets := List.replicate (kPrimeSizes.getD 0 0) []
           uBucketCount := kPrimeSizes.getD 0 0
           uLength := 0
           iSizeIndex := 0 }

/-- The function `SymTable_getLength`. -/
def SymTable_getLength (oSymTable : SymTable) : Nat := oSymTable.uLength

/-- Outcomes of the allocations of one `SymTable_put`: the `malloc` of the key copy, the
`malloc` of the node, and the `calloc` inside `SymTableHash_maybeGrow`. -/
structure PutAlloc where
  keyOk : Bool
  nodeOk : Bool
  growOk : Bool
deriving DecidableEq

/-- The function `SymTable_put`: the returned `int` and the table afterwards. -/
def SymTable_put (tg : Target) (oSymTable : SymTable) (pcKey : Key) (pvValue : Nat)
    (al : PutAlloc) : Int × SymTable :=
  let uHashIdx := SymTable_hash tg pcKey oSymTable.uBucketCount
  if (SymTableHash_find (oSymTable.ppBuckets.getD uHashIdx []) pcKey).isSome then (0, oSymTable)
  else if al.keyOk = false then (0, oSymTable)
  else if al.nodeOk = false then (0, oSymTable)
  else
    let pNew : Binding := { pcKey := pcKey, pvValue := pvValue }
    (1, SymTableHash_maybeGrow tg
      { oSymTable with
        ppBuckets := oSymTable.ppBuckets.set uHashIdx
          (pNew :: oSymTable.ppBuckets.getD uHashIdx [])
        uLength := oSymTable.uLength + 1 }
      al.growOk)

/-- The store `pBind->pvValue = pvValue` of `SymTable_replace`, seen from the chain that
holds the node `pBind` returned by `SymTableHash_find` (the first node with the key). -/
def storeValue (pcKey : Key) (pvValue : Nat) : List Binding → List Binding
  | [] => []
  | pCur :: pNext =>
    if pCur.pcKey = pcKey then { pCur with pvValue := pvValue } :: pNext
    else pCur :: storeValue pcKey pvValue pNext

/-- The function `SymTable_replace`: the returned pointer and the table afterwards. -/
def SymTable_replace (tg : Target) (oSymTable : SymTable) (pcKey : Key) (pvValue : Nat) :
    Nat × SymTable :=
  let uHashIdx := SymTable_hash tg pcKey oSymTable.uBucketCount
  match SymTableHash_find (oSymTable.ppBuckets.getD uHashIdx []) pcKey with
  | none => (NULL, oSymTable)
  | some pBind =>
    (pBind.pvValue,
      { oSymTable with
        ppBuckets := oSymTable.ppBuckets.set uHashIdx
          (storeValue pcKey pvValue (oSymTable.ppBuckets.getD uHashIdx [])) })

/-- The function `SymTable_contains`. -/
def SymTable_contains (tg : Target) (oSymTable : SymTable) (pcKey : Key) : Int :=
  let uHashIdx := SymTable_hash tg pcKey oSymTable.uBucketCount
  if (SymTableHash_find (oSymTable.ppBuckets.getD uHashIdx []) pcKey).isSome then 1 else 0

/-- The function `SymTable_get`. -/
def SymTable_get (tg : Target) (oSymTable : SymTable) (pcKey : Key) : Nat :=
  let uHashIdx := SymTable_hash tg pcKey oSymTable.uBucketCount
  match SymTableHash_find (oSymTable.ppBuckets.getD uHashIdx []) pcKey with
  | some pBind => pBind.pvValue
  | none => NULL

/-- The `while` loop of `SymTable_remove` on one chain: the value of the first node with
the key and the chain with that node unlinked, or `none` when the loop ends without a
match. -/
def removeChain (pcKey : Key) : List Binding → Option (Nat × List Binding)
  | [] => none
  | pCur :: pNext =>
    if pCur.pcKey = pcKey then some (pCur.pvValue, pNext)
    else
      match removeChain pcKey pNext with
      | none => none
      | some (pvVal, rest) => some (pvVal, pCur :: rest)

/-- The function `SymTable_remove`: the returned pointer and the table afterwards. -/
def SymTable_remove (tg : Target) (oSymTable : SymTable) (pcKey : Key) : Nat × SymTable :=
  let uHashIdx := SymTable_hash tg pcKey oSymTable.uBucketCount
  match removeChain pcKey (oSymTable.ppBuckets.getD uHashIdx []) with
  | some (pvVal, rest) =>
    (pvVal,
      { oSymTable with
        ppBuckets := oSymTable.ppBuckets.set uHashIdx rest
        uLength := oSymTable.uLength - 1 })
  | none => (NULL, oSymTable)

/-- The inner `while` loop of `SymTable_map`: the visitor is applied to each node of a chain
in chain order.  The visitor acts on a state `σ` of the caller. -/
def mapChain {σ : Type} (pfApply : Key → Nat → Nat → σ → σ) (pvExtra : Nat) :
    List Binding → σ → σ
  | [], s => s
  | pCur :: pNext, s => mapChain pfApply pvExtra pNext (pfApply pCur.pcKey pCur.pvValue pvExtra s)

/-- The outer `for` loop of `SymTable_map` over the given bucket indices. -/
def mapBuckets {σ : Type} (pfApply : Key → Nat → Nat → σ → σ) (pvExtra : Nat)
    (ppBuckets : List (List Binding)) : List Nat → σ → σ
  | [], s => s
  | i :: is, s =>
    mapBuckets pfApply pvExtra ppBuckets is (mapChain pfApply pvExtra (ppBuckets.getD i []) s)

/-- The function `SymTable_map`: the caller's state after all visitor calls. -/
def SymTable_map {σ : Type} (oSymTable : SymTable) (pfApply : Key → Nat → Nat → σ → σ)
    (pvExtra : Nat) (s : σ) : σ :=
  mapBuckets pfApply pvExtra oSymTable.ppBuckets (List.range oSymTable.uBucketCount) s

/-- Table states that a client of the interface can obtain: a successful `SymTable_new`
followed by any calls of `SymTable_put` (with any allocation outcomes),
`SymTable_replace` and `SymTable_remove`. -/
inductive Reachable (tg : Target) : SymTable → Prop
  | new {T : SymTable} : SymTable_new true true = some T → Reachable tg T
  | put {T : SymTable} (k : Key) (v : Nat) (al : PutAlloc) :
      Reachable tg T → Reachable tg (SymTable_put tg T k v al).2
  | replace {T : SymTable} (k : Key) (v : Nat) :
      Reachable tg T → Reachable tg (SymTable_replace tg T k v).2
  | remove {T : SymTable} (k : Key) :
      Reachable tg T → Reachable tg (SymTable_remove tg T k).2

/-- The bindings met when walking all buckets in index order, each chain from its head. -/
def SymTable_bindings (oSymTable : SymTable) : List Binding :=
  (List.range oSymTable.uBucketCount).flatMap (fun i => oSymTable.ppBuckets.getD i [])

/-- The representation invariant of the hash table: the bucket array has `uBucketCount`
slots, the size index is a valid index of `kPrimeSizes` and selects the bucket count,
every binding lies in the bucket its key hashes to, no key occurs twice, and `uLength`
is the number of bindings. -/
structure Inv (tg : Target) (T : SymTable) : Prop where
  len : T.ppBuckets.length = T.uBucketCount
  idx : 0 ≤ T.iSizeIndex ∧ T.iSizeIndex ≤ 7
  cnt : kPrimeSizes.getD T.iSizeIndex.toNat 0 = T.uBucketCount
  place : ∀ i, ∀ b ∈ T.ppBuckets.getD i [], SymTable_hash tg b.pcKey T.uBucketCount = i
  uniq : (T.ppBuckets.flatten.map Binding.pcKey).Nodup
  count : T.uLength = T.ppBuckets.flatten.length

/-- The node that a lookup of `k` finds: `SymTableHash_find` on the bucket of `k`. -/
def lookup (tg : Target) (T : SymTable) (k : Key) : Option Binding :=
  SymTableHash_find (T.ppBuckets.getD (SymTable_hash tg k T.uBucketCount) []) k

/-- A client that calls `SymTable_put` for each entry of a list, in order; an entry is the
key, the value and the allocation outcomes of its call. -/
def putAll (tg : Target) (T : SymTable) : List (Key × Nat × PutAlloc) → SymTable
  | [] => T
  | e :: rest => putAll tg (SymTable_put tg T e.1 e.2.1 e.2.2).2 rest

/-- A visitor for `SymTable_map` that appends the arguments of each call to a log. -/
def recordCall (pcKey : Key) (pvValue : Nat) (pvExtra : Nat) (log : List (Key × Nat × Nat)) :
    List (Key × Nat × Nat) :=
  log ++ [(pcKey, pvValue, pvExtra)]

/-- A 64-bit target with unsigned plain `char`. -/
def tg64 : Target := { sizeBits := 64, charSigned := false }

/-- The key `"a"`. -/
def keyA : Key := ⟨[97], by decide⟩

/-- The key `"b"`. -/
def keyB : Key := ⟨[98], by decide⟩

/-- All allocations of a put succeed. -/
def allocOk : PutAlloc := { keyOk := true, nodeOk := true, growOk := true }

/-- The empty table made by a successful `SymTable_new`. -/
def emptyTable : SymTable :=
  { ppBuckets := List.replicate 509 [], uBucketCount := 509, uLength := 0, iSizeIndex := 0 }

/-- The table after `SymTable_put` of `"a"` with value 5 into the empty table. -/
def tableA : SymTable := (SymTable_put tg64 emptyTable keyA 5 allocOk).2

/-- A put whose `malloc` of the key copy fails. -/
def allocKeyFails : PutAlloc := { keyOk := false, nodeOk := true, growOk := true }

/-- A put whose `malloc` of the node fails after the key copy was allocated. -/
def allocNodeFails : PutAlloc := { keyOk := true, nodeOk := false, growOk := true }

/-- A put whose `calloc` of a larger bucket array fails. -/
def allocGrowFails : PutAlloc := { keyOk := true, nodeOk := true, growOk := false }

/-- A 64-bit target with signed plain `char`. -/
def tgSigned64 : Target := { sizeBits := 64, charSigned := true }

/-- The empty key `""`. -/
def emptyKey : Key := ⟨[], by decide⟩

/-- The one-byte key `"\xC8"` (byte value 200). -/
def keyHigh : Key := ⟨[200], by decide⟩

end SymTableHash

/-! ## The list backend (`symtablelist.c`) -/

namespace SymTableList

open SymTableHash (Key Binding NULL)

/-- The struct `SymTable` of the list backend. -/
structure SymTable where
  pHead : List Binding
  uLength : Nat
deriving DecidableEq

/-- The function `SymTableList_find`: the first node of the list whose key equals `pcKey`,
or `none` for `NULL`. -/
def SymTableList_find : List Binding → Key → Option Binding
  | [], _ => none
  | pCur :: pNext, pcKey =>
    if pCur.pcKey = pcKey then some pCur else SymTableList_find pNext pcKey

/-- The function `SymTable_new` of the list backend; the argument is the outcome of the
`malloc` of the table. -/
def SymTable_new (mallocOk : Bool) : Option SymTable :=
  if mallocOk = false then none
  else some { pHead := [], uLength := 0 }

/-- The function `SymTable_getLength` of the list backend. -/
def SymTable_getLength (oSymTable : SymTable) : Nat := oSymTable.uLength

/-- The function `SymTable_put` of the list backend; `keyOk` and `nodeOk` are the outcomes
of the `malloc` of the key copy and of the node. -/
def SymTable_put (oSymTable : SymTable) (pcKey : Key) (pvValue : Nat) (keyOk nodeOk : Bool) :
    Int × SymTable :=
  if (SymTableList_find oSymTable.pHead pcKey).isSome then (0, oSymTable)
  else if keyOk = false then (0, oSymTable)
  else if nodeOk = false then (0, oSymTable)
  else
    let pNew : Binding := { pcKey := pcKey, pvValue := pvValue }
    (1, { pHead := pNew :: oSymTable.pHead, uLength := oSymTable.uLength + 1 })

/-- The store `pBind->pvValue = pvValue` of `SymTable_replace`, seen from the list that holds
the node `pBind` returned by `SymTableList_find` (the first node with the key). -/
def storeValue (pcKey : Key) (pvValue : Nat) : List Binding → List Binding
  | [] => []
  | pCur :: pNext =>
    if pCur.pcKey = pcKey then { pCur with pvValue := pvValue } :: pNext
    else pCur :: storeValue pcKey pvValue pNext

/-- The function `SymTable_replace` of the list backend. -/
def SymTable_replace (oSymTable : SymTable) (pcKey : Key) (pvValue : Nat) : Nat × SymTable :=
  match SymTableList_find oSymTable.pHead pcKey with
  | none => (NULL, oSymTable)
  | some pBind =>
    (pBind.pvValue, { oSymTable with pHead := storeValue pcKey pvValue oSymTable.pHead })

/-- The function `SymTable_contains` of the list backend. -/
def SymTable_contains (oSymTable : SymTable) (pcKey : Key) : Int :=
  if (SymTableList_find oSymTable.pHead pcKey).isSome then 1 else 0

/-- The function `SymTable_get` of the list backend. -/
def SymTable_get (oSymTable : SymTable) (pcKey : Key) : Nat :=
  match SymTableList_find oSymTable.pHead pcKey with
  | some pBind => pBind.pvValue
  | none => NULL

/-- The `while` loop of `SymTable_remove` of the list backend: the value of the first node
with the key and the list with that node unlinked, or `none` when the loop ends without a
match. -/
def removeLoop (pcKey : Key) : List Binding → Option (Nat × List Binding)
  | [] => none
  | pCur :: pNext =>
    if pCur.pcKey = pcKey then some (pCur.pvValue, pNext)
    else
      match removeLoop pcKey pNext with
      | none => none
      | some (pvVal, rest) => some (pvVal, pCur :: rest)

/-- The function `SymTable_remove` of the list backend. -/
def SymTable_remove (oSymTable : SymTable) (pcKey : Key) : Nat × SymTable :=
  match removeLoop pcKey oSymTable.pHead with
  | some (pvVal, rest) => (pvVal, { pHead := rest, uLength := oSymTable.uLength - 1 })
  | none => (NULL, oSymTable)

/-- The `while` loop of `SymTable_map` of the list backend. -/
def mapLoop {σ : Type} (pfApply : Key → Nat → Nat → σ → σ) (pvExtra : Nat) :
    List Binding → σ → σ
  | [], s => s
  | pCur :: pNext, s => mapLoop pfApply pvExtra pNext (pfApply pCur.pcKey pCur.pvValue pvExtra s)

/-- The function `SymTable_map` of the list backend: the caller's state after all visitor
calls. -/
def SymTable_map {σ : Type} (oSymTable : SymTable) (pfApply : Key → Nat → Nat → σ → σ)
    (pvExtra : Nat) (s : σ) : σ :=
  mapLoop pfApply pvExtra oSymTable.pHead s

end SymTableList

namespace SymTableHash

/-- One call of the interface by a client; a put carries the outcomes of its allocations (the
list backend performs the first two, the hash backend all three). -/
inductive Op where
  | put (k : Key) (v : Nat) (al : PutAlloc)
  | replace (k : Key) (v : Nat)
  | remove (k : Key)
  | get (k : Key)
  | contains (k : Key)
  | getLength

/-- The value a call returns: an `int`, a `void *` or a `size_t`. -/
inductive Ret where
  | int (i : Int)
  | ptr (p : Nat)
  | size (n : Nat)
deriving DecidableEq

/-- One call on the hash backend: the returned value and the table afterwards. -/
def stepHash (tg : Target) (T : SymTable) : Op → Ret × SymTable
  | Op.put k v al => (Ret.int (SymTable_put tg T k v al).1, (SymTable_put tg T k v al).2)
  | Op.replace k v => (Ret.ptr (SymTable_replace tg T k v).1, (SymTable_replace tg T k v).2)
  | Op.remove k => (Ret.ptr (SymTable_remove tg T k).1, (SymTable_remove tg T k).2)
  | Op.get k => (Ret.ptr (SymTable_get tg T k), T)
  | Op.contains k => (Ret.int (SymTable_contains tg T k), T)
  | Op.getLength => (Ret.size (SymTable_getLength T), T)

/-- One call on the list backend: the returned value and the table afterwards. -/
def stepList (T : SymTableList.SymTable) : Op → Ret × SymTableList.SymTable
  | Op.put k v al =>
    (Ret.int (SymTableList.SymTable_put T k v al.keyOk al.nodeOk).1,
      (SymTableList.SymTable_put T k v al.keyOk al.nodeOk).2)
  | Op.replace k v =>
    (Ret.ptr (SymTableList.SymTable_replace T k v).1, (SymTableList.SymTable_replace T k v).2)
  | Op.remove k =>
    (Ret.ptr (SymTableList.SymTable_remove T k).1, (SymTableList.SymTable_remove T k).2)
  | Op.get k => (Ret.ptr (SymTableList.SymTable_get T k), T)
  | Op.contains k => (Ret.int (SymTableList.SymTable_contains T k), T)
  | Op.getLength => (Ret.size (SymTableList.SymTable_getLength T), T)

/-- A sequence of calls on the hash backend: the returned values and the final table. -/
def runHash (tg : Target) (T : SymTable) : List Op → List Ret × SymTable
  | [] => ([], T)
  | op :: rest =>
    ((stepHash tg T op).1 :: (runHash tg (stepHash tg T op).2 rest).1,
      (runHash tg (stepHash tg T op).2 rest).2)

/-- A sequence of calls on the list backend: the returned values and the final table. -/
def runList (T : SymTableList.SymTable) : List Op → List Ret × SymTableList.SymTable
  | [] => ([], T)
  | op :: rest =>
    ((stepList T op).1 :: (runList (stepList T op).2 rest).1,
      (runList (stepList T op).2 rest).2)

/-- The simulation relation between the backends: the hash table satisfies its invariant and
holds, up to order, the bindings of the list, and the length fields agree. -/
def Sim (tg : Target) (H : SymTable) (L : SymTableList.SymTable) : Prop :=
  Inv tg H ∧ H.ppBuckets.flatten.Perm L.pHead ∧ H.uLength = L.uLength

/-- The empty list-backend table made by a successful `SymTable_new`. -/
def emptyList : SymTableList.SymTable := { pHead := [], uLength := 0 }

/-- A short client session. -/
def sampleOps : List Op :=
  [Op.put keyA 5 allocOk, Op.get keyA, Op.put keyA 7 allocOk, Op.contains keyB,
    Op.replace keyA 9, Op.getLength, Op.remove keyA, Op.get keyA, Op.getLength]

/-- The keys put since the table last grew, latest first, after one more `SymTable_put`:
unchanged when the put is rejected, the new key in front when it inserts without growth,
and empty when the put grows the table. -/
def recentAfterPut (tg : Target) (T : SymTable) (k : Key) (v : Nat) (al : PutAlloc)
    (recent : List Key) : List Key :=
  if (SymTable_put tg T k v al).1 = 0 then recent
  else if (SymTable_put tg T k v al).2.uBucketCount = T.uBucketCount then k :: recent
  else []

/-- Reachable table states together with the history that matters for chain order:
`ReachableSince tg T recent` says that `T` is reachable and that `recent` lists, latest put
first, the keys that were inserted after the table last grew and not removed since. -/
inductive ReachableSince (tg : Target) : SymTable → List Key → Prop
  | new {T : SymTable} : SymTable_new true true = some T → ReachableSince tg T []
  | put {T : SymTable} {recent : List Key} (k : Key) (v : Nat) (al : PutAlloc) :
      ReachableSince tg T recent →
      ReachableSince tg (SymTable_put tg T k v al).2 (recentAfterPut tg T k v al recent)
  | replace {T : SymTable} {recent : List Key} (k : Key) (v : Nat) :
      ReachableSince tg T recent → ReachableSince tg (SymTable_replace tg T k v).2 recent
  | remove {T : SymTable} {recent : List Key} (k : Key) :
      ReachableSince tg T recent →
      ReachableSince tg (SymTable_remove tg T k).2 (recent.filter (fun x => decide (x ≠ k)))

/-- The two-byte key number `i` of a family of keys that are pairwise different for
`i < 1275`. -/
def keyOf (i : Nat) : Key :=
  ⟨[i % 5 + 1, (i / 5) % 255 + 1], by
    intro c hc
    rw [List.mem_cons, List.mem_singleton] at hc
    rcases hc with rfl | rfl <;> omega⟩

/-- The first `n` puts of a client that puts the keys `keyOf 0`, `keyOf 1`, ... in this order,
key number `i` with value `i + 1`, every allocation succeeding. -/
def entries (n : Nat) : List (Key × Nat × PutAlloc) :=
  (List.range n).map (fun i => (keyOf i, i + 1, allocOk))

/-- The table after the 510 puts of `entries 510` into the empty table; the last put grows it
to 1021 buckets. -/
def grownTable : SymTable := putAll tg64 emptyTable (entries 510)

/-- The key `"\x01\x9F"`, which shares bucket 97 of a 509-bucket table with `"a"`. -/
def keyC : Key := ⟨[1, 159], by decide⟩

/-- The key `"\x02\xDD"`, which shares bucket 97 of a 509-bucket table with `"a"`. -/
def keyD : Key := ⟨[2, 221], by decide⟩

/-- The table after puts of `"a"`, `keyC` and `keyD`, in this order, with values 5, 6, 7:
all three keys lie in bucket 97. -/
def chainTable : SymTable :=
  (SymTable_put tg64 (SymTable_put tg64 tableA keyC 6 allocOk).2 keyD 7 allocOk).2

/-- The table after the first 509 puts of `entries` and a 510th put whose growth allocation
fails: 510 bindings in 509 buckets. -/
def overfullTable : SymTable :=
  putAll tg64 emptyTable (entries 509 ++ [(keyOf 509, 510, allocGrowFails)])

/-! ## Lists of chains -/

theorem getD_set_self {α : Type} (L : List (List α)) (i : Nat) (c : List α)
    (h : i < L.length) : (L.set i c).getD i [] = c := by
  induction L generalizing i with
  | nil => simp at h
  | cons x xs ih =>
    cases i with
    | zero => rfl
    | succ j =>
      have hj : j < xs.length := by simpa using h
      simpa only [List.set_cons_succ, List.getD_cons_succ] using ih j hj

theorem getD_set_other {α : Type} (L : List (List α)) (i j : Nat) (c : List α)
    (h : i ≠ j) : (L.set i c).getD j [] = L.getD j [] := by
  induction L generalizing i j with
  | nil => rfl
  | cons x xs ih =>
    cases i with
    | zero =>
      cases j with
      | zero => exact absurd rfl h
      | succ j => rfl
    | succ i =>
      cases j with
      | zero => rfl
      | succ j =>
        have hij : i ≠ j := fun e => h (by rw [e])
        simpa only [List.set_cons_succ, List.getD_cons_succ] using ih i j hij

theorem getD_nil_of_le {α : Type} (L : List (List α)) (i : Nat) (h : L.length ≤ i) :
    L.getD i [] = [] := by
  induction L generalizing i with
  | nil => rfl
  | cons x xs ih =>
    cases i with
    | zero => simp at h
    | succ j =>
      have hj : xs.length ≤ j := by simpa using h
      simpa only [List.getD_cons_succ] using ih j hj

theorem mem_flatten_iff_getD {α : Type} (L : List (List α)) (a : α) :
    a ∈ L.flatten ↔ ∃ i, a ∈ L.getD i [] := by
  induction L with
  | nil =>
    constructor
    · intro h; simp at h
    · rintro ⟨i, hi⟩; simp at hi
  | cons x xs ih =>
    rw [List.flatten_cons, List.mem_append, ih]
    constructor
    · rintro (h | ⟨i, hi⟩)
      · exact ⟨0, h⟩
      · exact ⟨i + 1, hi⟩
    · rintro ⟨i, hi⟩
      cases i with
      | zero => exact Or.inl hi
      | succ j => exact Or.inr ⟨j, hi⟩

theorem flatten_perm_getD {α : Type} (L : List (List α)) (i : Nat) (h : i < L.length) :
    L.flatten.Perm (L.getD i [] ++ (L.set i []).flatten) := by
  induction L generalizing i with
  | nil => simp at h
  | cons x xs ih =>
    cases i with
    | zero => exact List.Perm.refl _
    | succ j =>
      have hj : j < xs.length := by simpa using h
      have h1 := ih j hj
      simp only [List.set_cons_succ, List.getD_cons_succ, List.flatten_cons]
      exact (List.Perm.append_left x h1).trans (List.perm_append_comm_assoc _ _ _)

theorem flatten_set_perm {α : Type} (L : List (List α)) (i : Nat) (c : List α)
    (h : i < L.length) : (L.set i c).flatten.Perm (c ++ (L.set i []).flatten) := by
  induction L generalizing i with
  | nil => simp at h
  | cons x xs ih =>
    cases i with
    | zero => exact List.Perm.refl _
    | succ j =>
      have hj : j < xs.length := by simpa using h
      have h1 := ih j hj
      simp only [List.set_cons_succ, List.flatten_cons]
      exact (List.Perm.append_left x h1).trans (List.perm_append_comm_assoc _ _ _)

theorem flatMap_range_getD {α : Type} (L : List (List α)) :
    (List.range L.length).flatMap (fun i => L.getD i []) = L.flatten := by
  induction L with
  | nil => rfl
  | cons x xs ih =>
    rw [List.length_cons, List.range_succ_eq_map, List.flatMap_cons, List.flatMap_map,
      List.flatten_cons]
    exact congrArg (fun t => x ++ t) ih

/-! ## One chain -/

theorem find_some_mem (chain : List Binding) (k : Key) (b : Binding)
    (h : SymTableHash_find chain k = some b) : b ∈ chain ∧ b.pcKey = k := by
  induction chain with
  | nil => simp [SymTableHash_find] at h
  | cons x xs ih =>
    unfold SymTableHash_find at h
    by_cases hx : x.pcKey = k
    · rw [if_pos hx] at h
      have hb : x = b := Option.some.inj h
      subst hb
      exact ⟨List.mem_cons_self _ _, hx⟩
    · rw [if_neg hx] at h
      exact ⟨List.mem_cons_of_mem _ (ih h).1, (ih h).2⟩

theorem find_none_iff (chain : List Binding) (k : Key) :
    SymTableHash_find chain k = none ↔ ∀ b ∈ chain, b.pcKey ≠ k := by
  induction chain with
  | nil => simp [SymTableHash_find]
  | cons x xs ih =>
    unfold SymTableHash_find
    by_cases hx : x.pcKey = k
    · rw [if_pos hx]
      constructor
      · intro h; cases h
      · intro h; exact absurd hx (h x (List.mem_cons_self _ _))
    · rw [if_neg hx, ih]
      constructor
      · intro h b hb
        rcases List.mem_cons.1 hb with rfl | hb
        · exact hx
        · exact h b hb
      · intro h b hb
        exact h b (List.mem_cons_of_mem _ hb)

theorem removeChain_of_find_none (chain : List Binding) (k : Key)
    (h : SymTableHash_find chain k = none) : removeChain k chain = none := by
  induction chain with
  | nil => rfl
  | cons x xs ih =>
    unfold SymTableHash_find at h
    unfold removeChain
    by_cases hx : x.pcKey = k
    · rw [if_pos hx] at h; cases h
    · rw [if_neg hx] at h
      rw [if_neg hx, ih h]

theorem removeChain_of_find_some (chain : List Binding) (k : Key) (b : Binding)
    (h : SymTableHash_find chain k = some b) :
    ∃ rest, removeChain k chain = some (b.pvValue, rest) ∧ chain.Perm (b :: rest) ∧
      ∀ v, (storeValue k v chain).Perm ({ pcKey := k, pvValue := v } :: rest) := by
  induction chain with
  | nil => simp [SymTableHash_find] at h
  | cons x xs ih =>
    unfold SymTableHash_find at h
    by_cases hx : x.pcKey = k
    · rw [if_pos hx] at h
      have hb : x = b := Option.some.inj h
      subst hb
      refine ⟨xs, ?_, List.Perm.refl _, ?_⟩
      · unfold removeChain
        rw [if_pos hx]
      · intro v
        unfold storeValue
        rw [if_pos hx, hx]
    · rw [if_neg hx] at h
      obtain ⟨rest, h1, h2, h3⟩ := ih h
      refine ⟨x :: rest, ?_, ?_, ?_⟩
      · unfold removeChain
        rw [if_neg hx, h1]
      · exact (List.Perm.cons x h2).trans (List.Perm.swap b x rest)
      · intro v
        unfold storeValue
        rw [if_neg hx]
        exact (List.Perm.cons x (h3 v)).trans (List.Perm.swap _ x rest)

/-! ## The representation invariant -/

theorem Inv.pos {tg : Target} {T : SymTable} (h : Inv tg T) : 0 < T.uBucketCount := by
  obtain ⟨h0, h7⟩ := h.idx
  have hc := h.cnt
  generalize T.iSizeIndex = n at h0 h7 hc
  interval_cases n <;> simp [kPrimeSizes] at hc <;> omega

theorem hash_lt (tg : Target) (k : Key) (n : Nat) (h : 0 < n) : SymTable_hash tg k n < n :=
  Nat.mod_lt _ h

theorem Inv.hash_lt_length {tg : Target} {T : SymTable} (h : Inv tg T) (k : Key) :
    SymTable_hash tg k T.uBucketCount < T.ppBuckets.length := by
  rw [h.len]
  exact hash_lt tg k _ h.pos

theorem Inv.bindings_eq {tg : Target} {T : SymTable} (h : Inv tg T) :
    SymTable_bindings T = T.ppBuckets.flatten := by
  unfold SymTable_bindings
  rw [← h.len]
  exact flatMap_range_getD _

/-- Under the invariant a lookup finds exactly the bindings stored in the table. -/
theorem Inv.lookup_iff {tg : Target} {T : SymTable} (h : Inv tg T) (k : Key) (b : Binding) :
    lookup tg T k = some b ↔ b ∈ T.ppBuckets.flatten ∧ b.pcKey = k := by
  unfold lookup
  constructor
  · intro hf
    obtain ⟨hm, hk⟩ := find_some_mem _ _ _ hf
    exact ⟨(mem_flatten_iff_getD _ _).2 ⟨_, hm⟩, hk⟩
  · rintro ⟨hm, hk⟩
    obtain ⟨i, hi⟩ := (mem_flatten_iff_getD _ _).1 hm
    have hpl := h.place i b hi
    rw [hk] at hpl
    rw [hpl]
    cases hf : SymTableHash_find (T.ppBuckets.getD i []) k with
    | none => exact absurd hk ((find_none_iff _ _).1 hf b hi)
    | some c =>
      obtain ⟨hcm, hck⟩ := find_some_mem _ _ _ hf
      have hcf : c ∈ T.ppBuckets.flatten := (mem_flatten_iff_getD _ _).2 ⟨i, hcm⟩
      have : c = b := List.inj_on_of_nodup_map h.uniq hcf hm (hck.trans hk.symm)
      rw [this]

theorem Inv.lookup_none_iff {tg : Target} {T : SymTable} (h : Inv tg T) (k : Key) :
    lookup tg T k = none ↔ ∀ b ∈ T.ppBuckets.flatten, b.pcKey ≠ k := by
  constructor
  · intro hn b hb hk
    have := (h.lookup_iff k b).2 ⟨hb, hk⟩
    rw [hn] at this
    cases this
  · intro hall
    cases hl : lookup tg T k with
    | none => rfl
    | some b =>
      obtain ⟨hm, hk⟩ := (h.lookup_iff k b).1 hl
      exact absurd hk (hall b hm)

/-- Two tables with the invariant that store the same bindings for `k` answer a lookup of
`k` alike. -/
theorem lookup_congr {tg : Target} {T U : SymTable} (hT : Inv tg T) (hU : Inv tg U) (k : Key)
    (h : ∀ b : Binding, b.pcKey = k → (b ∈ T.ppBuckets.flatten ↔ b ∈ U.ppBuckets.flatten)) :
    lookup tg T k = lookup tg U k := by
  apply Option.ext
  intro b
  rw [Option.mem_def, Option.mem_def, hT.lookup_iff, hU.lookup_iff]
  constructor
  · rintro ⟨hm, hk⟩; exact ⟨(h b hk).1 hm, hk⟩
  · rintro ⟨hm, hk⟩; exact ⟨(h b hk).2 hm, hk⟩

theorem get_eq_lookup (tg : Target) (T : SymTable) (k : Key) :
    SymTable_get tg T k = match lookup tg T k with
      | some b => b.pvValue
      | none => NULL := rfl

theorem contains_eq_lookup (tg : Target) (T : SymTable) (k : Key) :
    SymTable_contains tg T k = if (lookup tg T k).isSome then 1 else 0 := rfl

theorem contains_eq_one_iff (tg : Target) (T : SymTable) (k : Key) :
    SymTable_contains tg T k = 1 ↔ ∃ b, lookup tg T k = some b := by
  rw [contains_eq_lookup]
  cases lookup tg T k with
  | none => simp
  | some b => simp

theorem contains_eq_zero_iff (tg : Target) (T : SymTable) (k : Key) :
    SymTable_contains tg T k = 0 ↔ lookup tg T k = none := by
  rw [contains_eq_lookup]
  cases lookup tg T k with
  | none => simp
  | some b => simp

/-! ## Growth -/

theorem flatten_set_cons_perm {α : Type} (L : List (List α)) (i : Nat) (x : α)
    (h : i < L.length) : (L.set i (x :: L.getD i [])).flatten.Perm (x :: L.flatten) := by
  have h1 := flatten_set_perm L i (x :: L.getD i []) h
  have h2 := flatten_perm_getD L i h
  exact h1.trans (List.Perm.cons x h2.symm)

theorem rehashChain_append (tg : Target) (n : Nat) (xs ys : List Binding)
    (acc : List (List Binding)) :
    rehashChain tg n (xs ++ ys) acc = rehashChain tg n ys (rehashChain tg n xs acc) := by
  induction xs generalizing acc with
  | nil => rfl
  | cons x xs ih => exact ih _

theorem rehashBuckets_eq (tg : Target) (n : Nat) (L : List (List Binding)) (is : List Nat)
    (acc : List (List Binding)) :
    rehashBuckets tg n L is acc = rehashChain tg n (is.flatMap (fun i => L.getD i [])) acc := by
  induction is generalizing acc with
  | nil => rfl
  | cons i is ih =>
    rw [List.flatMap_cons, rehashChain_append]
    exact ih _

theorem rehashChain_spec (tg : Target) (n : Nat) (hn : 0 < n) (bs : List Binding)
    (acc : List (List Binding)) (hl : acc.length = n)
    (hp : ∀ i, ∀ b ∈ acc.getD i [], SymTable_hash tg b.pcKey n = i) :
    (rehashChain tg n bs acc).length = n ∧
    (rehashChain tg n bs acc).flatten.Perm (bs ++ acc.flatten) ∧
    ∀ i, ∀ b ∈ (rehashChain tg n bs acc).getD i [], SymTable_hash tg b.pcKey n = i := by
  induction bs generalizing acc with
  | nil => exact ⟨hl, List.Perm.refl _, hp⟩
  | cons x xs ih =>
    have hlt : SymTable_hash tg x.pcKey n < acc.length := by
      rw [hl]; exact hash_lt tg _ _ hn
    have hl2 : (acc.set (SymTable_hash tg x.pcKey n)
        (x :: acc.getD (SymTable_hash tg x.pcKey n) [])).length = n := by
      rw [List.length_set]; exact hl
    have hp2 : ∀ i, ∀ b ∈ (acc.set (SymTable_hash tg x.pcKey n)
        (x :: acc.getD (SymTable_hash tg x.pcKey n) [])).getD i [],
        SymTable_hash tg b.pcKey n = i := by
      intro i b hb
      by_cases hi : SymTable_hash tg x.pcKey n = i
      · subst hi
        rw [getD_set_self _ _ _ hlt] at hb
        rcases List.mem_cons.1 hb with rfl | hb
        · rfl
        · exact hp _ b hb
      · rw [getD_set_other _ _ _ _ hi] at hb
        exact hp i b hb
    obtain ⟨h1, h2, h3⟩ := ih _ hl2 hp2
    refine ⟨h1, ?_, h3⟩
    have h4 := flatten_set_cons_perm acc (SymTable_hash tg x.pcKey n) x hlt
    exact (h2.trans (List.Perm.append_left xs h4)).trans List.perm_middle

theorem nextSize_pos (n : Int) (h0 : 0 ≤ n) (h7 : ¬ n ≥ (kPrimeSizes.length : Int) - 1) :
    0 < kPrimeSizes.getD (n + 1).toNat 0 := by
  have h8 : n < 7 := by
    have : ((kPrimeSizes.length : Nat) : Int) = 8 := rfl
    omega
  interval_cases n <;> simp [kPrimeSizes]

/-- The function `SymTableHash_maybeGrow` keeps the invariant, the stored bindings and the length. -/
theorem maybeGrow_spec (tg : Target) (T : SymTable) (c : Bool) (h : Inv tg T) :
    Inv tg (SymTableHash_maybeGrow tg T c) ∧
    (SymTableHash_maybeGrow tg T c).ppBuckets.flatten.Perm T.ppBuckets.flatten ∧
    (SymTableHash_maybeGrow tg T c).uLength = T.uLength := by
  unfold SymTableHash_maybeGrow
  by_cases h1 : T.iSizeIndex ≥ (kPrimeSizes.length : Int) - 1
  · rw [if_pos h1]; exact ⟨h, List.Perm.refl _, rfl⟩
  rw [if_neg h1]
  by_cases h2 : T.uLength ≤ T.uBucketCount
  · rw [if_pos h2]; exact ⟨h, List.Perm.refl _, rfl⟩
  rw [if_neg h2]
  dsimp only
  by_cases h3 : c = false
  · rw [if_pos h3]; exact ⟨h, List.Perm.refl _, rfl⟩
  rw [if_neg h3]
  have hn := nextSize_pos T.iSizeIndex h.idx.1 h1
  have hrep : ∀ i, ∀ b ∈ (List.replicate (kPrimeSizes.getD (T.iSizeIndex + 1).toNat 0)
      ([] : List Binding)).getD i [],
      SymTable_hash tg b.pcKey (kPrimeSizes.getD (T.iSizeIndex + 1).toNat 0) = i := by
    intro i b hb
    exfalso
    have hm : b ∈ (List.replicate (kPrimeSizes.getD (T.iSizeIndex + 1).toNat 0)
        ([] : List Binding)).flatten := (mem_flatten_iff_getD _ _).2 ⟨i, hb⟩
    rw [List.flatten_replicate_nil] at hm
    cases hm
  obtain ⟨r1, r2, r3⟩ := rehashChain_spec tg _ hn (SymTable_bindings T)
    (List.replicate (kPrimeSizes.getD (T.iSizeIndex + 1).toNat 0) []) (List.length_replicate _ _)
    hrep
  have r4 : (rehashChain tg (kPrimeSizes.getD (T.iSizeIndex + 1).toNat 0) (SymTable_bindings T)
      (List.replicate (kPrimeSizes.getD (T.iSizeIndex + 1).toNat 0) [])).flatten.Perm
      T.ppBuckets.flatten := by
    refine r2.trans ?_
    rw [List.flatten_replicate_nil, List.append_nil]
    exact List.Perm.of_eq h.bindings_eq
  rw [rehashBuckets_eq]
  have h8 : T.iSizeIndex < 7 := by
    have : ((kPrimeSizes.length : Nat) : Int) = 8 := rfl
    omega
  have h0 := h.idx.1
  refine ⟨?_, r4, rfl⟩
  exact
    { len := r1
      idx := ⟨show 0 ≤ T.iSizeIndex + 1 by omega, show T.iSizeIndex + 1 ≤ 7 by omega⟩
      cnt := rfl
      place := r3
      uniq := ((r4.map Binding.pcKey).nodup_iff).2 h.uniq
      count := (h.count.trans r4.length_eq.symm : T.uLength = _) }

/-! ## The operations on a table with the invariant -/

theorem put_noop (tg : Target) (T : SymTable) (k : Key) (v : Nat) (al : PutAlloc)
    (h : (lookup tg T k).isSome = true ∨ al.keyOk = false ∨ al.nodeOk = false) :
    SymTable_put tg T k v al = (0, T) := by
  unfold SymTable_put
  dsimp only
  by_cases h1 : (SymTableHash_find
      (T.ppBuckets.getD (SymTable_hash tg k T.uBucketCount) []) k).isSome = true
  · rw [if_pos h1]
  rw [if_neg h1]
  by_cases h2 : al.keyOk = false
  · rw [if_pos h2]
  rw [if_neg h2]
  by_cases h3 : al.nodeOk = false
  · rw [if_pos h3]
  rcases h with h | h | h
  · exact absurd h h1
  · exact absurd h h2
  · exact absurd h h3

theorem put_noop_of_not (tg : Target) (T : SymTable) (k : Key) (v : Nat) (al : PutAlloc)
    (hs : ¬ (lookup tg T k = none ∧ al.keyOk = true ∧ al.nodeOk = true)) :
    SymTable_put tg T k v al = (0, T) := by
  apply put_noop
  by_cases h1 : lookup tg T k = none
  · by_cases h2 : al.keyOk = true
    · by_cases h3 : al.nodeOk = true
      · exact absurd ⟨h1, h2, h3⟩ hs
      · exact Or.inr (Or.inr (by simpa using h3))
    · exact Or.inr (Or.inl (by simpa using h2))
  · left
    cases hl : lookup tg T k with
    | none => exact absurd hl h1
    | some b => rfl

theorem put_spec (tg : Target) (T : SymTable) (k : Key) (v : Nat) (al : PutAlloc)
    (h : Inv tg T) (hn : lookup tg T k = none) (hk : al.keyOk = true)
    (hnode : al.nodeOk = true) :
    (SymTable_put tg T k v al).1 = 1 ∧ Inv tg (SymTable_put tg T k v al).2 ∧
    (SymTable_put tg T k v al).2.ppBuckets.flatten.Perm
      ({ pcKey := k, pvValue := v } :: T.ppBuckets.flatten) ∧
    (SymTable_put tg T k v al).2.uLength = T.uLength + 1 := by
  have hlt := h.hash_lt_length k
  have hperm := flatten_set_cons_perm T.ppBuckets (SymTable_hash tg k T.uBucketCount)
    ({ pcKey := k, pvValue := v } : Binding) hlt
  have hfresh : k ∉ T.ppBuckets.flatten.map Binding.pcKey := by
    intro hm
    obtain ⟨b, hb, hbk⟩ := List.mem_map.1 hm
    exact (h.lookup_none_iff k).1 hn b hb hbk
  have hinv : Inv tg { T with
      ppBuckets := T.ppBuckets.set (SymTable_hash tg k T.uBucketCount)
        ({ pcKey := k, pvValue := v } ::
          T.ppBuckets.getD (SymTable_hash tg k T.uBucketCount) [])
      uLength := T.uLength + 1 } :=
    { len := by rw [List.length_set]; exact h.len
      idx := h.idx
      cnt := h.cnt
      place := by
        intro i b hb
        by_cases hi : SymTable_hash tg k T.uBucketCount = i
        · subst hi
          rw [getD_set_self _ _ _ hlt] at hb
          rcases List.mem_cons.1 hb with rfl | hb
          · rfl
          · exact h.place _ b hb
        · rw [getD_set_other _ _ _ _ hi] at hb
          exact h.place i b hb
      uniq := by
        refine ((hperm.map Binding.pcKey).nodup_iff).2 ?_
        rw [List.map_cons]
        exact List.nodup_cons.2 ⟨hfresh, h.uniq⟩
      count := by
        show T.uLength + 1 = _
        rw [hperm.length_eq, List.length_cons, h.count] }
  obtain ⟨g1, g2, g3⟩ := maybeGrow_spec tg _ al.growOk hinv
  have hfind : ¬ (SymTableHash_find
      (T.ppBuckets.getD (SymTable_hash tg k T.uBucketCount) []) k).isSome = true := by
    have : SymTableHash_find
      (T.ppBuckets.getD (SymTable_hash tg k T.uBucketCount) []) k = none := hn
    rw [this]; simp
  have hk2 : ¬ al.keyOk = false := by rw [hk]; simp
  have hn2 : ¬ al.nodeOk = false := by rw [hnode]; simp
  unfold SymTable_put
  dsimp only
  rw [if_neg hfind, if_neg hk2, if_neg hn2]
  exact ⟨rfl, g1, g2.trans hperm, g3⟩

theorem remove_absent (tg : Target) (T : SymTable) (k : Key) (hn : lookup tg T k = none) :
    SymTable_remove tg T k = (NULL, T) := by
  unfold SymTable_remove
  dsimp only
  rw [removeChain_of_find_none _ _ hn]

theorem remove_spec (tg : Target) (T : SymTable) (k : Key) (b : Binding)
    (h : Inv tg T) (hs : lookup tg T k = some b) :
    (SymTable_remove tg T k).1 = b.pvValue ∧ Inv tg (SymTable_remove tg T k).2 ∧
    T.ppBuckets.flatten.Perm (b :: (SymTable_remove tg T k).2.ppBuckets.flatten) ∧
    (SymTable_remove tg T k).2.uLength + 1 = T.uLength ∧
    (SymTable_remove tg T k).2.uBucketCount = T.uBucketCount := by
  have hlt := h.hash_lt_length k
  obtain ⟨rest, hr, hp, -⟩ := removeChain_of_find_some _ _ _ hs
  have hperm : T.ppBuckets.flatten.Perm
      (b :: (T.ppBuckets.set (SymTable_hash tg k T.uBucketCount) rest).flatten) := by
    have h1 := flatten_perm_getD T.ppBuckets _ hlt
    have h2 := flatten_set_perm T.ppBuckets _ rest hlt
    exact (h1.trans (List.Perm.append_right _ hp)).trans (List.Perm.cons b h2.symm)
  unfold SymTable_remove
  dsimp only
  rw [hr]
  dsimp only
  have hlen : T.uLength = (T.ppBuckets.set (SymTable_hash tg k T.uBucketCount)
      rest).flatten.length + 1 := by
    rw [h.count, hperm.length_eq, List.length_cons]
  refine ⟨rfl, ?_, hperm, by omega, rfl⟩
  exact
    { len := by rw [List.length_set]; exact h.len
      idx := h.idx
      cnt := h.cnt
      place := by
        intro i c hc
        by_cases hi : SymTable_hash tg k T.uBucketCount = i
        · subst hi
          rw [getD_set_self _ _ _ hlt] at hc
          exact h.place _ c (hp.symm.subset (List.mem_cons_of_mem _ hc))
        · rw [getD_set_other _ _ _ _ hi] at hc
          exact h.place i c hc
      uniq := by
        have := ((hperm.map Binding.pcKey).nodup_iff).1 h.uniq
        rw [List.map_cons] at this
        exact (List.nodup_cons.1 this).2
      count := by
        show T.uLength - 1 =
          (T.ppBuckets.set (SymTable_hash tg k T.uBucketCount) rest).flatten.length
        omega }

theorem replace_absent (tg : Target) (T : SymTable) (k : Key) (v : Nat)
    (hn : lookup tg T k = none) : SymTable_replace tg T k v = (NULL, T) := by
  unfold SymTable_replace
  dsimp only
  have : SymTableHash_find (T.ppBuckets.getD (SymTable_hash tg k T.uBucketCount) []) k = none :=
    hn
  rw [this]

theorem replace_spec (tg : Target) (T : SymTable) (k : Key) (v : Nat) (b : Binding)
    (h : Inv tg T) (hs : lookup tg T k = some b) :
    (SymTable_replace tg T k v).1 = b.pvValue ∧ Inv tg (SymTable_replace tg T k v).2 ∧
    (∃ R, T.ppBuckets.flatten.Perm (b :: R) ∧
      (SymTable_replace tg T k v).2.ppBuckets.flatten.Perm
        ({ pcKey := k, pvValue := v } :: R)) ∧
    (SymTable_replace tg T k v).2.uLength = T.uLength ∧
    (SymTable_replace tg T k v).2.uBucketCount = T.uBucketCount := by
  have hlt := h.hash_lt_length k
  have hbk : b.pcKey = k := ((h.lookup_iff k b).1 hs).2
  obtain ⟨rest, -, hp, hst⟩ := removeChain_of_find_some _ _ _ hs
  have hperm : T.ppBuckets.flatten.Perm
      (b :: (rest ++ (T.ppBuckets.set (SymTable_hash tg k T.uBucketCount) []).flatten)) :=
    (flatten_perm_getD T.ppBuckets _ hlt).trans (List.Perm.append_right _ hp)
  have hperm2 : (T.ppBuckets.set (SymTable_hash tg k T.uBucketCount)
      (storeValue k v (T.ppBuckets.getD (SymTable_hash tg k T.uBucketCount) []))).flatten.Perm
      ({ pcKey := k, pvValue := v } ::
        (rest ++ (T.ppBuckets.set (SymTable_hash tg k T.uBucketCount) []).flatten)) :=
    (flatten_set_perm T.ppBuckets _ _ hlt).trans (List.Perm.append_right _ (hst v))
  have hfind : SymTableHash_find
      (T.ppBuckets.getD (SymTable_hash tg k T.uBucketCount) []) k = some b := hs
  unfold SymTable_replace
  dsimp only
  rw [hfind]
  dsimp only
  refine ⟨rfl, ?_, ⟨_, hperm, hperm2⟩, rfl, rfl⟩
  exact
    { len := by rw [List.length_set]; exact h.len
      idx := h.idx
      cnt := h.cnt
      place := by
        intro i c hc
        by_cases hi : SymTable_hash tg k T.uBucketCount = i
        · subst hi
          rw [getD_set_self _ _ _ hlt] at hc
          rcases List.mem_cons.1 ((hst v).subset hc) with rfl | hc
          · rfl
          · exact h.place _ c (hp.symm.subset (List.mem_cons_of_mem _ hc))
        · rw [getD_set_other _ _ _ _ hi] at hc
          exact h.place i c hc
      uniq := by
        have h1 := ((hperm.map Binding.pcKey).nodup_iff).1 h.uniq
        refine ((hperm2.map Binding.pcKey).nodup_iff).2 ?_
        rw [List.map_cons] at h1 ⊢
        rw [hbk] at h1
        exact h1
      count := by
        show T.uLength = (T.ppBuckets.set (SymTable_hash tg k T.uBucketCount)
          (storeValue k v
            (T.ppBuckets.getD (SymTable_hash tg k T.uBucketCount) []))).flatten.length
        rw [hperm2.length_eq, h.count, hperm.length_eq, List.length_cons, List.length_cons] }

/-- Every table state that a client can obtain satisfies the representation invariant. -/
theorem Reachable.inv {tg : Target} {T : SymTable} (h : Reachable tg T) : Inv tg T := by
  induction h with
  | @new T hnew =>
    have : T = { ppBuckets := List.replicate (kPrimeSizes.getD 0 0) []
                 uBucketCount := kPrimeSizes.getD 0 0
                 uLength := 0
                 iSizeIndex := 0 } := (Option.some.inj hnew).symm
    subst this
    exact
      { len := List.length_replicate _ _
        idx := ⟨le_refl _, by decide⟩
        cnt := rfl
        place := by
          intro i b hb
          exfalso
          have hm : b ∈ (List.replicate (kPrimeSizes.getD 0 0) ([] : List Binding)).flatten :=
            (mem_flatten_iff_getD _ _).2 ⟨i, hb⟩
          rw [List.flatten_replicate_nil] at hm
          cases hm
        uniq := by
          show (List.map Binding.pcKey
            (List.replicate (kPrimeSizes.getD 0 0) ([] : List Binding)).flatten).Nodup
          rw [List.flatten_replicate_nil]
          exact List.nodup_nil
        count := by
          show 0 = (List.replicate (kPrimeSizes.getD 0 0) ([] : List Binding)).flatten.length
          rw [List.flatten_replicate_nil]
          rfl }
  | @put T k v al _ ih =>
    cases hl : lookup tg T k with
    | some b =>
      rw [put_noop tg T k v al (Or.inl (by rw [hl]; rfl))]
      exact ih
    | none =>
      by_cases hk : al.keyOk = true
      · by_cases hn : al.nodeOk = true
        · exact (put_spec tg T k v al ih hl hk hn).2.1
        · rw [put_noop tg T k v al (Or.inr (Or.inr (by simpa using hn)))]
          exact ih
      · rw [put_noop tg T k v al (Or.inr (Or.inl (by simpa using hk)))]
        exact ih
  | @replace T k v _ ih =>
    cases hl : lookup tg T k with
    | some b => exact (replace_spec tg T k v b ih hl).2.1
    | none =>
      rw [replace_absent tg T k v hl]
      exact ih
  | @remove T k _ ih =>
    cases hl : lookup tg T k with
    | some b => exact (remove_spec tg T k b ih hl).2.1
    | none =>
      rw [remove_absent tg T k hl]
      exact ih

/-! ## What a lookup sees after each operation -/

theorem get_contains_of_lookup_some (tg : Target) (T : SymTable) (k : Key) (b : Binding)
    (h : lookup tg T k = some b) :
    SymTable_get tg T k = b.pvValue ∧ SymTable_contains tg T k = 1 := by
  rw [get_eq_lookup, contains_eq_lookup, h]
  exact ⟨rfl, rfl⟩

theorem get_contains_of_lookup_none (tg : Target) (T : SymTable) (k : Key)
    (h : lookup tg T k = none) :
    SymTable_get tg T k = NULL ∧ SymTable_contains tg T k = 0 := by
  rw [get_eq_lookup, contains_eq_lookup, h]
  exact ⟨rfl, rfl⟩

theorem get_contains_congr (tg : Target) (T U : SymTable) (k : Key)
    (h : lookup tg T k = lookup tg U k) :
    SymTable_get tg T k = SymTable_get tg U k ∧
    SymTable_contains tg T k = SymTable_contains tg U k := by
  rw [get_eq_lookup, contains_eq_lookup, get_eq_lookup, contains_eq_lookup, h]
  exact ⟨rfl, rfl⟩

theorem put_lookup_self (tg : Target) (T : SymTable) (k : Key) (v : Nat) (al : PutAlloc)
    (h : Inv tg T) (hn : lookup tg T k = none) (hk : al.keyOk = true)
    (hnode : al.nodeOk = true) :
    lookup tg (SymTable_put tg T k v al).2 k = some { pcKey := k, pvValue := v } := by
  obtain ⟨-, hi, hp, -⟩ := put_spec tg T k v al h hn hk hnode
  exact (hi.lookup_iff k _).2 ⟨hp.symm.subset (List.mem_cons_self _ _), rfl⟩

theorem put_lookup_other (tg : Target) (T : SymTable) (k : Key) (v : Nat) (al : PutAlloc)
    (h : Inv tg T) (j : Key) (hj : j ≠ k) :
    lookup tg (SymTable_put tg T k v al).2 j = lookup tg T j := by
  by_cases hs : lookup tg T k = none ∧ al.keyOk = true ∧ al.nodeOk = true
  · obtain ⟨hn, hk, hnode⟩ := hs
    obtain ⟨-, hi, hp, -⟩ := put_spec tg T k v al h hn hk hnode
    apply lookup_congr hi h
    intro b hb
    rw [hp.mem_iff, List.mem_cons]
    constructor
    · rintro (rfl | hm)
      · exact absurd hb.symm hj
      · exact hm
    · exact Or.inr
  · have : SymTable_put tg T k v al = (0, T) := by
      apply put_noop
      by_cases h1 : lookup tg T k = none
      · by_cases h2 : al.keyOk = true
        · by_cases h3 : al.nodeOk = true
          · exact absurd ⟨h1, h2, h3⟩ hs
          · exact Or.inr (Or.inr (by simpa using h3))
        · exact Or.inr (Or.inl (by simpa using h2))
      · left
        cases hl : lookup tg T k with
        | none => exact absurd hl h1
        | some b => rfl
    rw [this]

theorem remove_lookup_self (tg : Target) (T : SymTable) (k : Key) (h : Inv tg T) :
    lookup tg (SymTable_remove tg T k).2 k = none := by
  cases hl : lookup tg T k with
  | none => rw [remove_absent tg T k hl]; exact hl
  | some b =>
    obtain ⟨-, hi, hp, -, -⟩ := remove_spec tg T k b h hl
    have hbk : b.pcKey = k := ((h.lookup_iff k b).1 hl).2
    rw [hi.lookup_none_iff]
    intro c hc hck
    have hnd := ((hp.map Binding.pcKey).nodup_iff).1 h.uniq
    rw [List.map_cons] at hnd
    apply (List.nodup_cons.1 hnd).1
    rw [hbk]
    exact List.mem_map.2 ⟨c, hc, hck⟩

theorem remove_lookup_other (tg : Target) (T : SymTable) (k : Key) (h : Inv tg T)
    (j : Key) (hj : j ≠ k) :
    lookup tg (SymTable_remove tg T k).2 j = lookup tg T j := by
  cases hl : lookup tg T k with
  | none => rw [remove_absent tg T k hl]
  | some b =>
    obtain ⟨-, hi, hp, -, -⟩ := remove_spec tg T k b h hl
    have hbk : b.pcKey = k := ((h.lookup_iff k b).1 hl).2
    apply lookup_congr hi h
    intro c hc
    rw [hp.mem_iff, List.mem_cons]
    constructor
    · exact Or.inr
    · rintro (rfl | hm)
      · exact absurd (hc.symm.trans hbk) hj
      · exact hm

theorem replace_lookup_self (tg : Target) (T : SymTable) (k : Key) (v : Nat) (b : Binding)
    (h : Inv tg T) (hs : lookup tg T k = some b) :
    lookup tg (SymTable_replace tg T k v).2 k = some { pcKey := k, pvValue := v } := by
  obtain ⟨-, hi, ⟨R, -, hp2⟩, -, -⟩ := replace_spec tg T k v b h hs
  exact (hi.lookup_iff k _).2 ⟨hp2.symm.subset (List.mem_cons_self _ _), rfl⟩

theorem replace_lookup_other (tg : Target) (T : SymTable) (k : Key) (v : Nat) (h : Inv tg T)
    (j : Key) (hj : j ≠ k) :
    lookup tg (SymTable_replace tg T k v).2 j = lookup tg T j := by
  cases hl : lookup tg T k with
  | none => rw [replace_absent tg T k v hl]
  | some b =>
    obtain ⟨-, hi, ⟨R, hp1, hp2⟩, -, -⟩ := replace_spec tg T k v b h hl
    have hbk : b.pcKey = k := ((h.lookup_iff k b).1 hl).2
    apply lookup_congr hi h
    intro c hc
    rw [hp1.mem_iff, hp2.mem_iff, List.mem_cons, List.mem_cons]
    constructor
    · rintro (rfl | hm)
      · exact absurd hc.symm hj
      · exact Or.inr hm
    · rintro (rfl | hm)
      · exact absurd (hc.symm.trans hbk) hj
      · exact Or.inr hm

/-! ## Sample tables -/

theorem reachable_emptyTable : Reachable tg64 emptyTable :=
  @Reachable.new tg64 emptyTable rfl

theorem reachable_tableA : Reachable tg64 tableA :=
  @Reachable.put tg64 emptyTable keyA 5 allocOk reachable_emptyTable

/-! ## Insertion -/

/-- C1: on a reachable table, putting an absent key with the key and node allocations
succeeding returns 1, raises the length by exactly one, makes the key present with the given
value, and leaves `SymTable_get` and `SymTable_contains` of every other key as they were,
whatever `SymTableHash_maybeGrow` does afterwards. -/
theorem put_absent_inserts (tg : Target) (T : SymTable) (k : Key) (v : Nat) (al : PutAlloc)
    (hR : Reachable tg T) (habs : SymTable_contains tg T k = 0)
    (hk : al.keyOk = true) (hnode : al.nodeOk = true) :
    (SymTable_put tg T k v al).1 = 1 ∧
    SymTable_getLength (SymTable_put tg T k v al).2 = SymTable_getLength T + 1 ∧
    SymTable_contains tg (SymTable_put tg T k v al).2 k = 1 ∧
    SymTable_get tg (SymTable_put tg T k v al).2 k = v ∧
    ∀ j : Key, j ≠ k →
      SymTable_get tg (SymTable_put tg T k v al).2 j = SymTable_get tg T j ∧
      SymTable_contains tg (SymTable_put tg T k v al).2 j = SymTable_contains tg T j := by
  have hI := hR.inv
  have hn : lookup tg T k = none := (contains_eq_zero_iff tg T k).1 habs
  obtain ⟨h1, -, -, h4⟩ := put_spec tg T k v al hI hn hk hnode
  have hs := get_contains_of_lookup_some tg _ k _ (put_lookup_self tg T k v al hI hn hk hnode)
  refine ⟨h1, h4, hs.2, hs.1, ?_⟩
  intro j hj
  exact get_contains_congr tg _ _ j (put_lookup_other tg T k v al hI j hj)

theorem put_absent_inserts_witness :
    Reachable tg64 tableA ∧ SymTable_contains tg64 tableA keyB = 0 ∧
    (SymTable_put tg64 tableA keyB 6 allocOk).1 = 1 ∧
    SymTable_getLength (SymTable_put tg64 tableA keyB 6 allocOk).2 =
      SymTable_getLength tableA + 1 ∧
    SymTable_contains tg64 (SymTable_put tg64 tableA keyB 6 allocOk).2 keyB = 1 ∧
    SymTable_get tg64 (SymTable_put tg64 tableA keyB 6 allocOk).2 keyB = 6 :=
  have h := put_absent_inserts tg64 tableA keyB 6 allocOk reachable_tableA (by decide) rfl rfl
  ⟨reachable_tableA, by decide, h.1, h.2.1, h.2.2.1, h.2.2.2.1⟩

/-- C2: putting a key that is already present returns 0 and leaves the table as it was (on
every table, reachable or not): the length, the bucket count and the results of
`SymTable_get` and `SymTable_contains` for every key are unchanged. -/
theorem put_present_rejected (tg : Target) (T : SymTable) (k : Key) (v : Nat) (al : PutAlloc)
    (hp : SymTable_contains tg T k = 1) :
    (SymTable_put tg T k v al).1 = 0 ∧
    (SymTable_put tg T k v al).2 = T ∧
    SymTable_getLength (SymTable_put tg T k v al).2 = SymTable_getLength T ∧
    (SymTable_put tg T k v al).2.uBucketCount = T.uBucketCount ∧
    ∀ j : Key,
      SymTable_get tg (SymTable_put tg T k v al).2 j = SymTable_get tg T j ∧
      SymTable_contains tg (SymTable_put tg T k v al).2 j = SymTable_contains tg T j := by
  obtain ⟨b, hb⟩ := (contains_eq_one_iff tg T k).1 hp
  have : SymTable_put tg T k v al = (0, T) :=
    put_noop tg T k v al (Or.inl (by rw [hb]; rfl))
  rw [this]
  exact ⟨rfl, rfl, rfl, rfl, fun _ => ⟨rfl, rfl⟩⟩

theorem put_present_rejected_witness :
    SymTable_contains tg64 tableA keyA = 1 ∧
    (SymTable_put tg64 tableA keyA 7 allocOk).1 = 0 ∧
    (SymTable_put tg64 tableA keyA 7 allocOk).2 = tableA ∧
    SymTable_get tg64 (SymTable_put tg64 tableA keyA 7 allocOk).2 keyA =
      SymTable_get tg64 tableA keyA :=
  have h := put_present_rejected tg64 tableA keyA 7 allocOk (by decide)
  ⟨by decide, h.1, h.2.1, (h.2.2.2.2 keyA).1⟩

/-- C3, as stated, fails: on the reachable table that binds `"a"` to 5, with every
allocation succeeding, `SymTable_put` of `"a"` with 7 followed by `SymTable_get` of `"a"`
returns 5, not 7. -/
theorem put_get_roundtrip_counterexample :
    Reachable tg64 tableA ∧
    SymTable_get tg64 (SymTable_put tg64 tableA keyA 7 allocOk).2 keyA ≠ 7 :=
  ⟨reachable_tableA, by decide⟩

/-- C3, amended: on a reachable table, when `SymTable_put` of `k` with `v` returns 1, a
following `SymTable_get` of `k` returns `v`. -/
theorem put_get_roundtrip (tg : Target) (T : SymTable) (k : Key) (v : Nat) (al : PutAlloc)
    (hR : Reachable tg T) (hret : (SymTable_put tg T k v al).1 = 1) :
    SymTable_get tg (SymTable_put tg T k v al).2 k = v := by
  have hI := hR.inv
  by_cases hs : lookup tg T k = none ∧ al.keyOk = true ∧ al.nodeOk = true
  · obtain ⟨hn, hk, hnode⟩ := hs
    exact (get_contains_of_lookup_some tg _ k _
      (put_lookup_self tg T k v al hI hn hk hnode)).1
  · exfalso
    have : SymTable_put tg T k v al = (0, T) := put_noop_of_not tg T k v al hs
    rw [this] at hret
    have h01 : (0 : Int) ≠ 1 := by decide
    exact h01 hret

theorem put_get_roundtrip_witness :
    Reachable tg64 tableA ∧ (SymTable_put tg64 tableA keyB 6 allocOk).1 = 1 ∧
    SymTable_get tg64 (SymTable_put tg64 tableA keyB 6 allocOk).2 keyB = 6 :=
  ⟨reachable_tableA, by decide,
    put_get_roundtrip tg64 tableA keyB 6 allocOk reachable_tableA (by decide)⟩

/-! ## Removal and replacement -/

/-- C4: on a reachable table, after `SymTable_remove` of any key (present or absent),
`SymTable_get` of that key returns `NULL` and `SymTable_contains` returns 0. -/
theorem remove_then_absent (tg : Target) (T : SymTable) (k : Key) (hR : Reachable tg T) :
    SymTable_get tg (SymTable_remove tg T k).2 k = NULL ∧
    SymTable_contains tg (SymTable_remove tg T k).2 k = 0 :=
  get_contains_of_lookup_none tg _ k (remove_lookup_self tg T k hR.inv)

theorem remove_then_absent_witness :
    Reachable tg64 tableA ∧ SymTable_contains tg64 tableA keyA = 1 ∧
    SymTable_get tg64 (SymTable_remove tg64 tableA keyA).2 keyA = NULL ∧
    SymTable_contains tg64 (SymTable_remove tg64 tableA keyA).2 keyA = 0 :=
  ⟨reachable_tableA, by decide, remove_then_absent tg64 tableA keyA reachable_tableA⟩

/-- C5: on a reachable table, `SymTable_remove` of a key that is present with value `v`
returns `v`, lowers the length by exactly one and leaves `SymTable_get` and
`SymTable_contains` of every other key as they were; `SymTable_remove` of an absent key
returns `NULL` and leaves the table unchanged. -/
theorem remove_present_absent (tg : Target) (T : SymTable) (k : Key) (hR : Reachable tg T) :
    (∀ v : Nat, SymTable_contains tg T k = 1 → SymTable_get tg T k = v →
      (SymTable_remove tg T k).1 = v ∧
      SymTable_getLength (SymTable_remove tg T k).2 + 1 = SymTable_getLength T ∧
      ∀ j : Key, j ≠ k →
        SymTable_get tg (SymTable_remove tg T k).2 j = SymTable_get tg T j ∧
        SymTable_contains tg (SymTable_remove tg T k).2 j = SymTable_contains tg T j) ∧
    (SymTable_contains tg T k = 0 →
      (SymTable_remove tg T k).1 = NULL ∧ (SymTable_remove tg T k).2 = T) := by
  have hI := hR.inv
  constructor
  · intro v hc hg
    obtain ⟨b, hb⟩ := (contains_eq_one_iff tg T k).1 hc
    obtain ⟨h1, -, -, h4, -⟩ := remove_spec tg T k b hI hb
    have hv : b.pvValue = v := by
      rw [← hg]; exact (get_contains_of_lookup_some tg T k b hb).1.symm
    refine ⟨h1.trans hv, h4, ?_⟩
    intro j hj
    exact get_contains_congr tg _ _ j (remove_lookup_other tg T k hI j hj)
  · intro hc
    have hn : lookup tg T k = none := (contains_eq_zero_iff tg T k).1 hc
    rw [remove_absent tg T k hn]
    exact ⟨rfl, rfl⟩

theorem remove_present_absent_witness :
    Reachable tg64 tableA ∧
    (SymTable_contains tg64 tableA keyA = 1 ∧ SymTable_get tg64 tableA keyA = 5 ∧
      (SymTable_remove tg64 tableA keyA).1 = 5 ∧
      SymTable_getLength (SymTable_remove tg64 tableA keyA).2 + 1 =
        SymTable_getLength tableA) ∧
    (SymTable_contains tg64 tableA keyB = 0 ∧
      (SymTable_remove tg64 tableA keyB).1 = NULL ∧
      (SymTable_remove tg64 tableA keyB).2 = tableA) :=
  have hA := (remove_present_absent tg64 tableA keyA reachable_tableA).1 5 (by decide)
    (by decide)
  have hB := (remove_present_absent tg64 tableA keyB reachable_tableA).2 (by decide)
  ⟨reachable_tableA, ⟨by decide, by decide, hA.1, hA.2.1⟩, ⟨by decide, hB.1, hB.2⟩⟩

/-- C6: on a reachable table, `SymTable_replace` of a key that is present with value `v1`
returns `v1`, a following `SymTable_get` of the key returns the new value, and the length
and the results of `SymTable_get` and `SymTable_contains` for every other key are
unchanged; `SymTable_replace` of an absent key returns `NULL` and leaves the table, so its
length and all its bindings, unchanged. -/
theorem replace_present_absent (tg : Target) (T : SymTable) (k : Key) (v2 : Nat)
    (hR : Reachable tg T) :
    (∀ v1 : Nat, SymTable_contains tg T k = 1 → SymTable_get tg T k = v1 →
      (SymTable_replace tg T k v2).1 = v1 ∧
      SymTable_get tg (SymTable_replace tg T k v2).2 k = v2 ∧
      SymTable_contains tg (SymTable_replace tg T k v2).2 k = 1 ∧
      SymTable_getLength (SymTable_replace tg T k v2).2 = SymTable_getLength T ∧
      ∀ j : Key, j ≠ k →
        SymTable_get tg (SymTable_replace tg T k v2).2 j = SymTable_get tg T j ∧
        SymTable_contains tg (SymTable_replace tg T k v2).2 j = SymTable_contains tg T j) ∧
    (SymTable_contains tg T k = 0 →
      (SymTable_replace tg T k v2).1 = NULL ∧ (SymTable_replace tg T k v2).2 = T ∧
      SymTable_getLength (SymTable_replace tg T k v2).2 = SymTable_getLength T ∧
      ∀ j : Key,
        SymTable_get tg (SymTable_replace tg T k v2).2 j = SymTable_get tg T j ∧
        SymTable_contains tg (SymTable_replace tg T k v2).2 j = SymTable_contains tg T j) := by
  have hI := hR.inv
  constructor
  · intro v1 hc hg
    obtain ⟨b, hb⟩ := (contains_eq_one_iff tg T k).1 hc
    obtain ⟨h1, -, -, h4, -⟩ := replace_spec tg T k v2 b hI hb
    have hv : b.pvValue = v1 := by
      rw [← hg]; exact (get_contains_of_lookup_some tg T k b hb).1.symm
    have hs := get_contains_of_lookup_some tg _ k _ (replace_lookup_self tg T k v2 b hI hb)
    refine ⟨h1.trans hv, hs.1, hs.2, h4, ?_⟩
    intro j hj
    exact get_contains_congr tg _ _ j (replace_lookup_other tg T k v2 hI j hj)
  · intro hc
    have hn : lookup tg T k = none := (contains_eq_zero_iff tg T k).1 hc
    rw [replace_absent tg T k v2 hn]
    exact ⟨rfl, rfl, rfl, fun _ => ⟨rfl, rfl⟩⟩

theorem replace_present_absent_witness :
    Reachable tg64 tableA ∧
    (SymTable_contains tg64 tableA keyA = 1 ∧ SymTable_get tg64 tableA keyA = 5 ∧
      (SymTable_replace tg64 tableA keyA 9).1 = 5 ∧
      SymTable_get tg64 (SymTable_replace tg64 tableA keyA 9).2 keyA = 9) ∧
    (SymTable_contains tg64 tableA keyB = 0 ∧
      (SymTable_replace tg64 tableA keyB 9).1 = NULL ∧
      (SymTable_replace tg64 tableA keyB 9).2 = tableA) :=
  have hA := (replace_present_absent tg64 tableA keyA 9 reachable_tableA).1 5 (by decide)
    (by decide)
  have hB := (replace_present_absent tg64 tableA keyB 9 reachable_tableA).2 (by decide)
  ⟨reachable_tableA, ⟨by decide, by decide, hA.1, hA.2.1⟩, ⟨by decide, hB.1, hB.2.1⟩⟩

/-! ## Length and key uniqueness -/

theorem Inv.contains_iff_mem_keys {tg : Target} {T : SymTable} (h : Inv tg T) (k : Key) :
    SymTable_contains tg T k = 1 ↔ k ∈ (SymTable_bindings T).map Binding.pcKey := by
  rw [contains_eq_one_iff, h.bindings_eq, List.mem_map]
  constructor
  · rintro ⟨b, hb⟩
    exact ⟨b, (h.lookup_iff k b).1 hb⟩
  · rintro ⟨b, hb⟩
    exact ⟨b, (h.lookup_iff k b).2 hb⟩

/-- C7: on a reachable table, `SymTable_getLength` is the number of bindings met when
walking all buckets, and that is the number of keys for which `SymTable_contains`
returns 1. -/
theorem length_accuracy (tg : Target) (T : SymTable) (hR : Reachable tg T) :
    SymTable_getLength T = (SymTable_bindings T).length ∧
    (SymTable_bindings T).length = Set.ncard { k : Key | SymTable_contains tg T k = 1 } := by
  have hI := hR.inv
  have hnd : ((SymTable_bindings T).map Binding.pcKey).Nodup := by
    rw [hI.bindings_eq]; exact hI.uniq
  constructor
  · rw [hI.bindings_eq]; exact hI.count
  · have hset : { k : Key | SymTable_contains tg T k = 1 } =
        (((SymTable_bindings T).map Binding.pcKey).toFinset : Set Key) := by
      ext k
      rw [Set.mem_setOf_eq, Finset.mem_coe, List.mem_toFinset]
      exact hI.contains_iff_mem_keys k
    rw [hset, Set.ncard_coe_Finset, List.toFinset_card_of_nodup hnd, List.length_map]

theorem length_accuracy_witness :
    Reachable tg64 tableA ∧
    SymTable_getLength tableA = (SymTable_bindings tableA).length ∧
    (SymTable_bindings tableA).length =
      Set.ncard { k : Key | SymTable_contains tg64 tableA k = 1 } :=
  ⟨reachable_tableA, length_accuracy tg64 tableA reachable_tableA⟩

theorem put_inv (tg : Target) (T : SymTable) (k : Key) (v : Nat) (al : PutAlloc)
    (h : Inv tg T) : Inv tg (SymTable_put tg T k v al).2 := by
  by_cases hs : lookup tg T k = none ∧ al.keyOk = true ∧ al.nodeOk = true
  · exact (put_spec tg T k v al h hs.1 hs.2.1 hs.2.2).2.1
  · rw [put_noop_of_not tg T k v al hs]
    exact h

theorem putAll_lookup (tg : Target) (l : List (Key × Nat × PutAlloc)) (T : SymTable)
    (h : Inv tg T) (hd : (l.map (fun e => e.1)).Nodup)
    (hfresh : ∀ e ∈ l, lookup tg T e.1 = none) :
    (∀ j : Key, j ∉ l.map (fun e => e.1) → lookup tg (putAll tg T l) j = lookup tg T j) ∧
    (∀ e ∈ l, e.2.2.keyOk = true → e.2.2.nodeOk = true →
      lookup tg (putAll tg T l) e.1 = some { pcKey := e.1, pvValue := e.2.1 }) := by
  induction l generalizing T with
  | nil =>
    constructor
    · intro j _; rfl
    · intro e he; cases he
  | cons x rest ih =>
    rw [List.map_cons] at hd
    obtain ⟨hx, hrest⟩ := List.nodup_cons.1 hd
    have hI1 := put_inv tg T x.1 x.2.1 x.2.2 h
    have hne : ∀ e ∈ rest, e.1 ≠ x.1 := by
      intro e he heq
      exact hx (List.mem_map.2 ⟨e, he, heq⟩)
    have hfresh1 : ∀ e ∈ rest, lookup tg (SymTable_put tg T x.1 x.2.1 x.2.2).2 e.1 = none := by
      intro e he
      rw [put_lookup_other tg T x.1 x.2.1 x.2.2 h e.1 (hne e he)]
      exact hfresh e (List.mem_cons_of_mem _ he)
    obtain ⟨ih1, ih2⟩ := ih _ hI1 hrest hfresh1
    constructor
    · intro j hj
      rw [List.map_cons, List.mem_cons, not_or] at hj
      show lookup tg (putAll tg (SymTable_put tg T x.1 x.2.1 x.2.2).2 rest) j = _
      rw [ih1 j hj.2]
      exact put_lookup_other tg T x.1 x.2.1 x.2.2 h j hj.1
    · intro e he hk hn
      show lookup tg (putAll tg (SymTable_put tg T x.1 x.2.1 x.2.2).2 rest) e.1 = _
      rcases List.mem_cons.1 he with rfl | he
      · rw [ih1 e.1 hx]
        exact put_lookup_self tg T e.1 e.2.1 e.2.2 h (hfresh e (List.mem_cons_self _ _)) hk hn
      · exact ih2 e he hk hn

/-- C9: when a list of entries with pairwise different keys is put into a fresh table, every
key whose key and node allocations succeed is present afterwards with the value it was put
with, however many growth steps happen and whether or not their allocations succeed; and
`SymTableHash_maybeGrow` on a reachable table keeps the length and the results of
`SymTable_get` and `SymTable_contains` for every key. -/
theorem growth_transparency (tg : Target) :
    (∀ (T0 : SymTable) (l : List (Key × Nat × PutAlloc)), SymTable_new true true = some T0 →
      (l.map (fun e => e.1)).Nodup →
      ∀ e ∈ l, e.2.2.keyOk = true → e.2.2.nodeOk = true →
        SymTable_contains tg (putAll tg T0 l) e.1 = 1 ∧
        SymTable_get tg (putAll tg T0 l) e.1 = e.2.1) ∧
    (∀ (T : SymTable) (callocOk : Bool), Reachable tg T →
      SymTable_getLength (SymTableHash_maybeGrow tg T callocOk) = SymTable_getLength T ∧
      ∀ k : Key,
        SymTable_get tg (SymTableHash_maybeGrow tg T callocOk) k = SymTable_get tg T k ∧
        SymTable_contains tg (SymTableHash_maybeGrow tg T callocOk) k =
          SymTable_contains tg T k) := by
  constructor
  · intro T0 l hnew hd e he hk hn
    have hI : Inv tg T0 := (Reachable.new hnew).inv
    have hfresh : ∀ e ∈ l, lookup tg T0 e.1 = none := by
      intro e _
      rw [hI.lookup_none_iff]
      intro b hb
      exfalso
      have : T0 = { ppBuckets := List.replicate (kPrimeSizes.getD 0 0) []
                    uBucketCount := kPrimeSizes.getD 0 0
                    uLength := 0
                    iSizeIndex := 0 } := (Option.some.inj hnew).symm
      subst this
      have hb2 : b ∈ (List.replicate (kPrimeSizes.getD 0 0) ([] : List Binding)).flatten := hb
      rw [List.flatten_replicate_nil] at hb2
      cases hb2
    have := (putAll_lookup tg l T0 hI hd hfresh).2 e he hk hn
    have hs := get_contains_of_lookup_some tg _ e.1 _ this
    exact ⟨hs.2, hs.1⟩
  · intro T c hR
    obtain ⟨g1, g2, g3⟩ := maybeGrow_spec tg T c hR.inv
    refine ⟨g3, ?_⟩
    intro k
    apply get_contains_congr
    apply lookup_congr g1 hR.inv
    intro b _
    exact g2.mem_iff

/-! ## Traversal -/

theorem mapChain_append {σ : Type} (f : Key → Nat → Nat → σ → σ) (x : Nat)
    (xs ys : List Binding) (s : σ) :
    mapChain f x (xs ++ ys) s = mapChain f x ys (mapChain f x xs s) := by
  induction xs generalizing s with
  | nil => rfl
  | cons b bs ih => exact ih _

theorem mapBuckets_eq {σ : Type} (f : Key → Nat → Nat → σ → σ) (x : Nat)
    (L : List (List Binding)) (is : List Nat) (s : σ) :
    mapBuckets f x L is s = mapChain f x (is.flatMap (fun i => L.getD i [])) s := by
  induction is generalizing s with
  | nil => rfl
  | cons i is ih =>
    rw [List.flatMap_cons, mapChain_append]
    exact ih _

theorem mapChain_fold {σ : Type} (f : Key → Nat → Nat → σ → σ) (x : Nat)
    (bs : List Binding) (s : σ) :
    mapChain f x bs s =
      (bs.map (fun b => (b.pcKey, b.pvValue, x))).foldl (fun s c => f c.1 c.2.1 c.2.2 s) s := by
  induction bs generalizing s with
  | nil => rfl
  | cons b bs ih => exact ih _

theorem mapChain_record (x : Nat) (bs : List Binding) (log : List (Key × Nat × Nat)) :
    mapChain recordCall x bs log = log ++ bs.map (fun b => (b.pcKey, b.pvValue, x)) := by
  induction bs generalizing log with
  | nil => simp [mapChain]
  | cons b bs ih =>
    show mapChain recordCall x bs (log ++ [(b.pcKey, b.pvValue, x)]) = _
    rw [ih, List.map_cons, List.append_assoc]
    rfl

theorem map_record_eq (T : SymTable) (x : Nat) :
    SymTable_map T recordCall x [] =
      (SymTable_bindings T).map (fun b => (b.pcKey, b.pvValue, x)) := by
  unfold SymTable_map
  rw [mapBuckets_eq, mapChain_record]
  rfl

/-- C10: on a reachable table, the calls that `SymTable_map` makes to its visitor (the
log of the recording visitor, which any other visitor's run folds over) number
`SymTable_getLength`; a key occurs in exactly one call when it is present and in none when
it is absent; and each call passes the value bound to its key and the caller's extra
argument. -/
theorem map_complete (tg : Target) (T : SymTable) (pvExtra : Nat) (hR : Reachable tg T) :
    (∀ (σ : Type) (pfApply : Key → Nat → Nat → σ → σ) (s : σ),
      SymTable_map T pfApply pvExtra s =
        (SymTable_map T recordCall pvExtra []).foldl
          (fun s c => pfApply c.1 c.2.1 c.2.2 s) s) ∧
    (SymTable_map T recordCall pvExtra []).length = SymTable_getLength T ∧
    (∀ k : Key, ((SymTable_map T recordCall pvExtra []).map (fun c => c.1)).count k =
      if SymTable_contains tg T k = 1 then 1 else 0) ∧
    (∀ c ∈ SymTable_map T recordCall pvExtra [],
      c.2.1 = SymTable_get tg T c.1 ∧ c.2.2 = pvExtra) := by
  have hI := hR.inv
  have hkeys : (SymTable_map T recordCall pvExtra []).map (fun c => c.1) =
      (SymTable_bindings T).map Binding.pcKey := by
    rw [map_record_eq, List.map_map]
    rfl
  refine ⟨?_, ?_, ?_, ?_⟩
  · intro σ f s
    rw [map_record_eq]
    unfold SymTable_map
    rw [mapBuckets_eq]
    exact mapChain_fold f pvExtra _ s
  · rw [map_record_eq, List.length_map, hI.bindings_eq]
    exact hI.count.symm
  · intro k
    have hnd : ((SymTable_bindings T).map Binding.pcKey).Nodup := by
      rw [hI.bindings_eq]; exact hI.uniq
    rw [hkeys, List.count_eq_of_nodup hnd]
    by_cases hc : SymTable_contains tg T k = 1
    · rw [if_pos hc, if_pos ((hI.contains_iff_mem_keys k).1 hc)]
    · rw [if_neg hc, if_neg (fun hm => hc ((hI.contains_iff_mem_keys k).2 hm))]
  · intro c hc
    rw [map_record_eq, List.mem_map] at hc
    obtain ⟨b, hb, rfl⟩ := hc
    rw [hI.bindings_eq] at hb
    have hl := (hI.lookup_iff b.pcKey b).2 ⟨hb, rfl⟩
    exact ⟨(get_contains_of_lookup_some tg T _ b hl).1.symm, rfl⟩

theorem map_complete_witness :
    Reachable tg64 tableA ∧
    (SymTable_map tableA recordCall 3 []).length = SymTable_getLength tableA ∧
    ((SymTable_map tableA recordCall 3 []).map (fun c => c.1)).count keyA = 1 :=
  have h := map_complete tg64 tableA 3 reachable_tableA
  ⟨reachable_tableA, h.2.1, (h.2.2.1 keyA).trans (if_pos (by decide))⟩

/-! ## Allocation failure -/

/-- C11: when the allocation of the key copy or of the node fails, `SymTable_put` returns 0
and leaves the table as it was (on every table): the length, the bucket count and the
results of `SymTable_get` and `SymTable_contains` for every key are unchanged. -/
theorem put_alloc_failure_isolated (tg : Target) (T : SymTable) (k : Key) (v : Nat)
    (al : PutAlloc) (hf : al.keyOk = false ∨ al.nodeOk = false) :
    (SymTable_put tg T k v al).1 = 0 ∧
    (SymTable_put tg T k v al).2 = T ∧
    SymTable_getLength (SymTable_put tg T k v al).2 = SymTable_getLength T ∧
    (SymTable_put tg T k v al).2.uBucketCount = T.uBucketCount ∧
    ∀ j : Key,
      SymTable_get tg (SymTable_put tg T k v al).2 j = SymTable_get tg T j ∧
      SymTable_contains tg (SymTable_put tg T k v al).2 j = SymTable_contains tg T j := by
  have : SymTable_put tg T k v al = (0, T) := put_noop tg T k v al (Or.inr hf)
  rw [this]
  exact ⟨rfl, rfl, rfl, rfl, fun _ => ⟨rfl, rfl⟩⟩

theorem put_alloc_failure_isolated_witness :
    (SymTable_contains tg64 tableA keyB = 0 ∧
      (SymTable_put tg64 tableA keyB 6 allocKeyFails).1 = 0 ∧
      (SymTable_put tg64 tableA keyB 6 allocKeyFails).2 = tableA) ∧
    ((SymTable_put tg64 tableA keyB 6 allocNodeFails).1 = 0 ∧
      (SymTable_put tg64 tableA keyB 6 allocNodeFails).2 = tableA) :=
  have h1 := put_alloc_failure_isolated tg64 tableA keyB 6 allocKeyFails (Or.inl rfl)
  have h2 := put_alloc_failure_isolated tg64 tableA keyB 6 allocNodeFails (Or.inr rfl)
  ⟨⟨by decide, h1.1, h1.2.1⟩, ⟨h2.1, h2.2.1⟩⟩

/-! ## Capacity tiers -/

/-- What `SymTableHash_maybeGrow` does: nothing, or (below the last tier, with the length above
the bucket count and the `calloc` succeeding) a move to the next tier. -/
theorem maybeGrow_cases (tg : Target) (T : SymTable) (c : Bool) :
    (SymTableHash_maybeGrow tg T c = T ∧
      (T.iSizeIndex ≥ 7 ∨ T.uLength ≤ T.uBucketCount ∨ c = false)) ∨
    (T.iSizeIndex < 7 ∧ T.uBucketCount < T.uLength ∧ c = true ∧
      (SymTableHash_maybeGrow tg T c).iSizeIndex = T.iSizeIndex + 1 ∧
      (SymTableHash_maybeGrow tg T c).uBucketCount =
        kPrimeSizes.getD (T.iSizeIndex + 1).toNat 0 ∧
      (SymTableHash_maybeGrow tg T c).uLength = T.uLength ∧
      (SymTableHash_maybeGrow tg T c).ppBuckets =
        rehashChain tg (kPrimeSizes.getD (T.iSizeIndex + 1).toNat 0) (SymTable_bindings T)
          (List.replicate (kPrimeSizes.getD (T.iSizeIndex + 1).toNat 0) [])) := by
  have h8 : ((kPrimeSizes.length : Nat) : Int) - 1 = 7 := rfl
  unfold SymTableHash_maybeGrow
  rw [h8]
  by_cases h1 : T.iSizeIndex ≥ 7
  · rw [if_pos h1]; exact Or.inl ⟨rfl, Or.inl h1⟩
  rw [if_neg h1]
  by_cases h2 : T.uLength ≤ T.uBucketCount
  · rw [if_pos h2]; exact Or.inl ⟨rfl, Or.inr (Or.inl h2)⟩
  rw [if_neg h2]
  dsimp only
  by_cases h3 : c = false
  · rw [if_pos h3]; exact Or.inl ⟨rfl, Or.inr (Or.inr h3)⟩
  rw [if_neg h3]
  refine Or.inr ⟨by omega, by omega, by simpa using h3, rfl, rfl, rfl, ?_⟩
  exact rehashBuckets_eq _ _ _ _ _

theorem kPrimeSizes_step (n : Int) (h0 : 0 ≤ n) (h7 : n < 7) :
    kPrimeSizes.getD n.toNat 0 + 1 < kPrimeSizes.getD (n + 1).toNat 0 := by
  interval_cases n <;> simp [kPrimeSizes]

theorem maybeGrow_mono (tg : Target) (T : SymTable) (c : Bool) (h : Inv tg T) :
    T.iSizeIndex ≤ (SymTableHash_maybeGrow tg T c).iSizeIndex ∧
    T.uBucketCount ≤ (SymTableHash_maybeGrow tg T c).uBucketCount := by
  rcases maybeGrow_cases tg T c with ⟨he, -⟩ | ⟨h7, -, -, hi, hc, -, -⟩
  · rw [he]; exact ⟨le_refl _, le_refl _⟩
  · have := kPrimeSizes_step T.iSizeIndex h.idx.1 h7
    rw [h.cnt] at this
    rw [hi, hc]
    constructor <;> omega

theorem remove_fields (tg : Target) (T : SymTable) (k : Key) :
    (SymTable_remove tg T k).2.iSizeIndex = T.iSizeIndex ∧
    (SymTable_remove tg T k).2.uBucketCount = T.uBucketCount := by
  unfold SymTable_remove
  dsimp only
  cases removeChain k (T.ppBuckets.getD (SymTable_hash tg k T.uBucketCount) []) with
  | none => exact ⟨rfl, rfl⟩
  | some r => exact ⟨rfl, rfl⟩

theorem replace_fields (tg : Target) (T : SymTable) (k : Key) (v : Nat) :
    (SymTable_replace tg T k v).2.iSizeIndex = T.iSizeIndex ∧
    (SymTable_replace tg T k v).2.uBucketCount = T.uBucketCount ∧
    (SymTable_replace tg T k v).2.uLength = T.uLength := by
  unfold SymTable_replace
  dsimp only
  cases SymTableHash_find (T.ppBuckets.getD (SymTable_hash tg k T.uBucketCount) []) k with
  | none => exact ⟨rfl, rfl, rfl⟩
  | some r => exact ⟨rfl, rfl, rfl⟩

/-- The table of a successful put before `SymTableHash_maybeGrow` runs. -/
theorem put_eq_maybeGrow (tg : Target) (T : SymTable) (k : Key) (v : Nat) (al : PutAlloc)
    (hn : lookup tg T k = none) (hk : al.keyOk = true) (hnode : al.nodeOk = true) :
    SymTable_put tg T k v al =
      (1, SymTableHash_maybeGrow tg
        { T with
          ppBuckets := T.ppBuckets.set (SymTable_hash tg k T.uBucketCount)
            ({ pcKey := k, pvValue := v } ::
              T.ppBuckets.getD (SymTable_hash tg k T.uBucketCount) [])
          uLength := T.uLength + 1 }
        al.growOk) := by
  have hfind : ¬ (SymTableHash_find
      (T.ppBuckets.getD (SymTable_hash tg k T.uBucketCount) []) k).isSome = true := by
    have : SymTableHash_find
      (T.ppBuckets.getD (SymTable_hash tg k T.uBucketCount) []) k = none := hn
    rw [this]; simp
  have hk2 : ¬ al.keyOk = false := by rw [hk]; simp
  have hn2 : ¬ al.nodeOk = false := by rw [hnode]; simp
  unfold SymTable_put
  dsimp only
  rw [if_neg hfind, if_neg hk2, if_neg hn2]

/-- The table before growth of a successful put satisfies the invariant. -/
theorem put_pre_inv (tg : Target) (T : SymTable) (k : Key) (v : Nat)
    (h : Inv tg T) (hn : lookup tg T k = none) :
    Inv tg { T with
      ppBuckets := T.ppBuckets.set (SymTable_hash tg k T.uBucketCount)
        ({ pcKey := k, pvValue := v } ::
          T.ppBuckets.getD (SymTable_hash tg k T.uBucketCount) [])
      uLength := T.uLength + 1 } := by
  have h1 := put_eq_maybeGrow tg T k v allocGrowFails hn rfl rfl
  have h2 := (put_spec tg T k v allocGrowFails h hn rfl rfl).2.1
  rw [h1] at h2
  rcases maybeGrow_cases tg _ allocGrowFails.growOk with ⟨he, -⟩ | ⟨-, -, hc, -⟩
  · dsimp only at h2
    rw [he] at h2
    exact h2
  · exact absurd hc (by decide)

theorem put_mono (tg : Target) (T : SymTable) (k : Key) (v : Nat) (al : PutAlloc)
    (h : Inv tg T) :
    T.iSizeIndex ≤ (SymTable_put tg T k v al).2.iSizeIndex ∧
    T.uBucketCount ≤ (SymTable_put tg T k v al).2.uBucketCount := by
  by_cases hs : lookup tg T k = none ∧ al.keyOk = true ∧ al.nodeOk = true
  · rw [put_eq_maybeGrow tg T k v al hs.1 hs.2.1 hs.2.2]
    exact maybeGrow_mono tg _ al.growOk (put_pre_inv tg T k v h hs.1)
  · rw [put_noop_of_not tg T k v al hs]
    exact ⟨le_refl _, le_refl _⟩

/-- C14: on a reachable table the size index lies in 0..7 and the bucket count is
`kPrimeSizes[iSizeIndex]`; `SymTable_put` never lowers the size index or the bucket count;
`SymTable_remove` and `SymTable_replace` leave both unchanged.  (`SymTable_get` and
`SymTable_contains` only read the table: they return no new table state.) -/
theorem capacity_tier (tg : Target) (T : SymTable) (hR : Reachable tg T) :
    (0 ≤ T.iSizeIndex ∧ T.iSizeIndex ≤ 7 ∧
      T.uBucketCount = kPrimeSizes.getD T.iSizeIndex.toNat 0) ∧
    (∀ (k : Key) (v : Nat) (al : PutAlloc),
      T.iSizeIndex ≤ (SymTable_put tg T k v al).2.iSizeIndex ∧
      T.uBucketCount ≤ (SymTable_put tg T k v al).2.uBucketCount) ∧
    (∀ k : Key,
      (SymTable_remove tg T k).2.iSizeIndex = T.iSizeIndex ∧
      (SymTable_remove tg T k).2.uBucketCount = T.uBucketCount) ∧
    (∀ (k : Key) (v : Nat),
      (SymTable_replace tg T k v).2.iSizeIndex = T.iSizeIndex ∧
      (SymTable_replace tg T k v).2.uBucketCount = T.uBucketCount) := by
  have hI := hR.inv
  refine ⟨⟨hI.idx.1, hI.idx.2, hI.cnt.symm⟩, ?_, ?_, ?_⟩
  · intro k v al
    exact put_mono tg T k v al hI
  · intro k
    exact remove_fields tg T k
  · intro k v
    exact ⟨(replace_fields tg T k v).1, (replace_fields tg T k v).2.1⟩

theorem capacity_tier_witness :
    Reachable tg64 tableA ∧
    (0 ≤ tableA.iSizeIndex ∧ tableA.iSizeIndex ≤ 7 ∧
      tableA.uBucketCount = kPrimeSizes.getD tableA.iSizeIndex.toNat 0) ∧
    (SymTable_remove tg64 tableA keyA).2.uBucketCount = tableA.uBucketCount :=
  have h := capacity_tier tg64 tableA reachable_tableA
  ⟨reachable_tableA, h.1, (h.2.2.1 keyA).2⟩

/-! ## Bucket placement -/

/-- C15: on a reachable table every binding stored in bucket `i` has
`i = SymTable_hash(key, uBucketCount)`, the bucket that a lookup of its key inspects; so a
binding lies in one bucket only and every binding met when walking the table lies in the
bucket of its key; and the same holds for the table that `SymTableHash_maybeGrow` returns
(put, remove and replace are covered by reachability). -/
theorem bucket_placement (tg : Target) (T : SymTable) (hR : Reachable tg T) :
    (∀ (i : Nat) (b : Binding), b ∈ T.ppBuckets.getD i [] →
      i = SymTable_hash tg b.pcKey T.uBucketCount) ∧
    (∀ (i j : Nat) (b : Binding), b ∈ T.ppBuckets.getD i [] → b ∈ T.ppBuckets.getD j [] →
      i = j) ∧
    (∀ b ∈ SymTable_bindings T,
      b ∈ T.ppBuckets.getD (SymTable_hash tg b.pcKey T.uBucketCount) []) ∧
    (∀ (c : Bool) (i : Nat) (b : Binding),
      b ∈ (SymTableHash_maybeGrow tg T c).ppBuckets.getD i [] →
      i = SymTable_hash tg b.pcKey (SymTableHash_maybeGrow tg T c).uBucketCount) := by
  have hI := hR.inv
  refine ⟨?_, ?_, ?_, ?_⟩
  · intro i b hb
    exact (hI.place i b hb).symm
  · intro i j b hi hj
    exact (hI.place i b hi).symm.trans (hI.place j b hj)
  · intro b hb
    rw [hI.bindings_eq] at hb
    obtain ⟨i, hi⟩ := (mem_flatten_iff_getD _ _).1 hb
    rw [hI.place i b hi]
    exact hi
  · intro c i b hb
    exact ((maybeGrow_spec tg T c hI).1.place i b hb).symm

theorem bucket_placement_witness :
    Reachable tg64 tableA ∧
    (∀ (i : Nat) (b : Binding), b ∈ tableA.ppBuckets.getD i [] →
      i = SymTable_hash tg64 b.pcKey tableA.uBucketCount) :=
  ⟨reachable_tableA, (bucket_placement tg64 tableA reachable_tableA).1⟩

/-! ## Failure of the growth allocation -/

/-- C18: on a reachable table, a put of an absent key whose key and node allocations succeed
and whose `calloc` in `SymTableHash_maybeGrow` fails (if it is attempted) still returns 1;
the key is present with its value, the length is one more, the bucket count and the size
index are unchanged, the representation invariant holds and the table is a reachable one,
so every operation goes on working on it. -/
theorem growth_failure_swallowed (tg : Target) (T : SymTable) (k : Key) (v : Nat)
    (al : PutAlloc) (hR : Reachable tg T) (habs : SymTable_contains tg T k = 0)
    (hk : al.keyOk = true) (hnode : al.nodeOk = true) (hg : al.growOk = false) :
    (SymTable_put tg T k v al).1 = 1 ∧
    SymTable_contains tg (SymTable_put tg T k v al).2 k = 1 ∧
    SymTable_get tg (SymTable_put tg T k v al).2 k = v ∧
    SymTable_getLength (SymTable_put tg T k v al).2 = SymTable_getLength T + 1 ∧
    (SymTable_put tg T k v al).2.uBucketCount = T.uBucketCount ∧
    (SymTable_put tg T k v al).2.iSizeIndex = T.iSizeIndex ∧
    Inv tg (SymTable_put tg T k v al).2 ∧
    Reachable tg (SymTable_put tg T k v al).2 := by
  have hI := hR.inv
  have hn : lookup tg T k = none := (contains_eq_zero_iff tg T k).1 habs
  obtain ⟨h1, h2, -, h4⟩ := put_spec tg T k v al hI hn hk hnode
  have hs := get_contains_of_lookup_some tg _ k _ (put_lookup_self tg T k v al hI hn hk hnode)
  refine ⟨h1, hs.2, hs.1, h4, ?_, ?_, h2, Reachable.put k v al hR⟩
  · rw [put_eq_maybeGrow tg T k v al hn hk hnode]
    rcases maybeGrow_cases tg
      { T with
        ppBuckets := T.ppBuckets.set (SymTable_hash tg k T.uBucketCount)
          ({ pcKey := k, pvValue := v } ::
            T.ppBuckets.getD (SymTable_hash tg k T.uBucketCount) [])
        uLength := T.uLength + 1 } al.growOk with ⟨he, -⟩ | ⟨-, -, hc, -⟩
    · dsimp only; rw [he]
    · rw [hg] at hc; cases hc
  · rw [put_eq_maybeGrow tg T k v al hn hk hnode]
    rcases maybeGrow_cases tg
      { T with
        ppBuckets := T.ppBuckets.set (SymTable_hash tg k T.uBucketCount)
          ({ pcKey := k, pvValue := v } ::
            T.ppBuckets.getD (SymTable_hash tg k T.uBucketCount) [])
        uLength := T.uLength + 1 } al.growOk with ⟨he, -⟩ | ⟨-, -, hc, -⟩
    · dsimp only; rw [he]
    · rw [hg] at hc; cases hc

/-! ## Load bound -/

/-- C20: on a reachable table, `SymTable_put` of an absent key with the key and node
allocations succeeding, followed by `SymTable_remove` of that key, returns the put value from
the remove and gives a table with the length and the results of `SymTable_get` and
`SymTable_contains` for every key that the table had before the put. -/
theorem put_remove_inverse (tg : Target) (T : SymTable) (k : Key) (v : Nat) (al : PutAlloc)
    (hR : Reachable tg T) (habs : SymTable_contains tg T k = 0)
    (hk : al.keyOk = true) (hnode : al.nodeOk = true) :
    (SymTable_remove tg (SymTable_put tg T k v al).2 k).1 = v ∧
    SymTable_getLength (SymTable_remove tg (SymTable_put tg T k v al).2 k).2 =
      SymTable_getLength T ∧
    ∀ j : Key,
      SymTable_get tg (SymTable_remove tg (SymTable_put tg T k v al).2 k).2 j =
        SymTable_get tg T j ∧
      SymTable_contains tg (SymTable_remove tg (SymTable_put tg T k v al).2 k).2 j =
        SymTable_contains tg T j := by
  have hI := hR.inv
  have hn : lookup tg T k = none := (contains_eq_zero_iff tg T k).1 habs
  obtain ⟨-, hI1, -, hlen⟩ := put_spec tg T k v al hI hn hk hnode
  have hl1 := put_lookup_self tg T k v al hI hn hk hnode
  obtain ⟨r1, -, -, r4, -⟩ := remove_spec tg _ k _ hI1 hl1
  refine ⟨r1, ?_, ?_⟩
  · unfold SymTable_getLength
    omega
  · intro j
    apply get_contains_congr
    by_cases hj : j = k
    · subst hj
      rw [remove_lookup_self tg _ j hI1, hn]
    · rw [remove_lookup_other tg _ k hI1 j hj, put_lookup_other tg T k v al hI j hj]

theorem put_remove_inverse_witness :
    Reachable tg64 tableA ∧ SymTable_contains tg64 tableA keyB = 0 ∧
    (SymTable_remove tg64 (SymTable_put tg64 tableA keyB 6 allocOk).2 keyB).1 = 6 ∧
    SymTable_getLength (SymTable_remove tg64 (SymTable_put tg64 tableA keyB 6 allocOk).2 keyB).2 =
      SymTable_getLength tableA :=
  have h := put_remove_inverse tg64 tableA keyB 6 allocOk reachable_tableA (by decide) rfl rfl
  ⟨reachable_tableA, by decide, h.1, h.2.1⟩

/-! ## The hash function -/

theorem hashLoop_eq_foldl (tg : Target) (l : List Nat) (u : Nat) :
    hashLoop tg l u =
      l.foldl (fun h c => (h * 65599 + charToSizeT tg c) % 2 ^ tg.sizeBits) u := by
  induction l generalizing u with
  | nil => rfl
  | cons c rest ih =>
    show hashLoop tg rest
      ((u * (65599 % 2 ^ tg.sizeBits) + charToSizeT tg c) % 2 ^ tg.sizeBits) = _
    rw [ih, List.foldl_cons]
    congr 1
    rw [Nat.add_mod, Nat.mul_mod, Nat.mod_mod, ← Nat.mul_mod, ← Nat.add_mod]

theorem charToSizeT_plain (tg : Target) (c : Nat) (hc : c < 256) (hw : 8 ≤ tg.sizeBits)
    (h : tg.charSigned = false ∨ c < 128) : charToSizeT tg c = c := by
  have h256 : (256 : Nat) ≤ 2 ^ tg.sizeBits := by
    have : (2 : Nat) ^ 8 ≤ 2 ^ tg.sizeBits := Nat.pow_le_pow_right (by decide) hw
    simpa using this
  have hcond : (tg.charSigned && decide (128 ≤ c)) = false := by
    rcases h with h | h
    · rw [h]; rfl
    · have : decide (128 ≤ c) = false := by simpa using h
      rw [this]; simp
  unfold charToSizeT
  rw [hcond]
  simp only [Bool.false_eq_true, if_false]
  exact Nat.mod_eq_of_lt (by omega)

/-- C17, as stated, fails where plain `char` is signed: on a 64-bit target with signed `char`
the key `"\xC8"` (one byte of value 200) hashes, for 509 buckets, to
`(2^64 - 56) mod 509 = 246`, while the fold over the byte values gives `200`. -/
theorem hash_formula_counterexample :
    0 < 509 ∧
    SymTable_hash tgSigned64 keyHigh 509 ≠
      keyHigh.val.foldl (fun h c => (h * 65599 + c) % 2 ^ tgSigned64.sizeBits) 0 % 509 := by
  decide

/-- C17, amended: for every key and bucket count `n > 0`, `SymTable_hash` is the left fold
over the bytes, from 0, of `h ↦ (h * 65599 + s) mod 2^w`, reduced mod `n`, where `s` is the
byte converted from plain `char` to `size_t`: the byte value where `char` is unsigned or the
byte is below 128 (then the fold is over the byte values), and `2^w - 256 +` the byte value
where `char` is signed and the byte is 128 or more.  The result is below `n`, the empty key
hashes to 0, and keys with the same bytes have the same hash. -/
theorem hash_formula (tg : Target) (key : Key) (n : Nat) (hn : 0 < n) :
    SymTable_hash tg key n =
      key.val.foldl (fun h c => (h * 65599 + charToSizeT tg c) % 2 ^ tg.sizeBits) 0 % n ∧
    (∀ c : Nat, charToSizeT tg c =
      if tg.charSigned = true ∧ 128 ≤ c then (2 ^ tg.sizeBits + c - 256) % 2 ^ tg.sizeBits
      else c % 2 ^ tg.sizeBits) ∧
    ((tg.charSigned = false ∨ ∀ c ∈ key.val, c < 128) → 8 ≤ tg.sizeBits →
      SymTable_hash tg key n =
        key.val.foldl (fun h c => (h * 65599 + c) % 2 ^ tg.sizeBits) 0 % n) ∧
    SymTable_hash tg key n < n ∧
    SymTable_hash tg emptyKey n = 0 ∧
    (∀ key2 : Key, key2.val = key.val → SymTable_hash tg key2 n = SymTable_hash tg key n) := by
  have h1 : SymTable_hash tg key n =
      key.val.foldl (fun h c => (h * 65599 + charToSizeT tg c) % 2 ^ tg.sizeBits) 0 % n := by
    unfold SymTable_hash
    rw [hashLoop_eq_foldl]
  refine ⟨h1, ?_, ?_, hash_lt tg key n hn, ?_, ?_⟩
  · intro c
    unfold charToSizeT
    by_cases hs : tg.charSigned = true
    · by_cases hc : 128 ≤ c
      · simp [hs, hc]
      · simp [hs, hc]
    · simp [hs]
  · intro hplain hw
    rw [h1]
    congr 1
    apply List.foldl_ext
    intro a c hc
    have hlt : c < 256 := (key.property c hc).2
    have : charToSizeT tg c = c := by
      apply charToSizeT_plain tg c hlt hw
      rcases hplain with h | h
      · exact Or.inl h
      · exact Or.inr (h c hc)
    rw [this]
  · show hashLoop tg [] 0 % n = 0
    exact Nat.zero_mod n
  · intro key2 h2
    have : key2 = key := Subtype.ext h2
    rw [this]

theorem hash_formula_witness :
    0 < 509 ∧
    SymTable_hash tg64 keyA 509 =
      keyA.val.foldl (fun h c => (h * 65599 + c) % 2 ^ tg64.sizeBits) 0 % 509 ∧
    SymTable_hash tg64 keyA 509 < 509 :=
  have h := hash_formula tg64 keyA 509 (by decide)
  ⟨by decide, h.2.2.1 (Or.inl rfl) (by decide), h.2.2.2.1⟩

/-! ## Growth policy -/

theorem new_eq_emptyTable (T0 : SymTable) (h : SymTable_new true true = some T0) :
    T0 = emptyTable := (Option.some.inj h).symm

theorem new_lookup_none (tg : Target) (T0 : SymTable) (h : SymTable_new true true = some T0)
    (k : Key) : lookup tg T0 k = none := by
  have hI : Inv tg T0 := (Reachable.new h).inv
  rw [hI.lookup_none_iff]
  intro b hb
  exfalso
  rw [new_eq_emptyTable T0 h] at hb
  have hb2 : b ∈ (List.replicate 509 ([] : List Binding)).flatten := hb
  rw [List.flatten_replicate_nil] at hb2
  cases hb2

theorem putAll_inv (tg : Target) (l : List (Key × Nat × PutAlloc)) (T : SymTable)
    (h : Inv tg T) : Inv tg (putAll tg T l) := by
  induction l generalizing T with
  | nil => exact h
  | cons e rest ih => exact ih _ (put_inv tg T e.1 e.2.1 e.2.2 h)

theorem putAll_append (tg : Target) (l1 l2 : List (Key × Nat × PutAlloc)) (T : SymTable) :
    putAll tg T (l1 ++ l2) = putAll tg (putAll tg T l1) l2 := by
  induction l1 generalizing T with
  | nil => rfl
  | cons e rest ih => exact ih _

theorem putAll_concat (tg : Target) (T : SymTable) (l : List (Key × Nat × PutAlloc))
    (k : Key) (v : Nat) (al : PutAlloc) :
    putAll tg T (l ++ [(k, v, al)]) = (SymTable_put tg (putAll tg T l) k v al).2 := by
  rw [putAll_append]
  rfl

theorem putAll_reachable (tg : Target) (l : List (Key × Nat × PutAlloc)) (T : SymTable)
    (h : Reachable tg T) : Reachable tg (putAll tg T l) := by
  induction l generalizing T with
  | nil => exact h
  | cons e rest ih => exact ih _ (Reachable.put e.1 e.2.1 e.2.2 h)

/-- The bucket count and size index after a successful put, by the growth condition. -/
theorem put_growth (tg : Target) (T : SymTable) (k : Key) (v : Nat) (al : PutAlloc)
    (hn : lookup tg T k = none) (hk : al.keyOk = true) (hnode : al.nodeOk = true) :
    (T.iSizeIndex < 7 ∧ T.uBucketCount < T.uLength + 1 ∧ al.growOk = true →
      (SymTable_put tg T k v al).2.uBucketCount =
        kPrimeSizes.getD (T.iSizeIndex + 1).toNat 0 ∧
      (SymTable_put tg T k v al).2.iSizeIndex = T.iSizeIndex + 1) ∧
    (¬ (T.iSizeIndex < 7 ∧ T.uBucketCount < T.uLength + 1 ∧ al.growOk = true) →
      (SymTable_put tg T k v al).2.uBucketCount = T.uBucketCount ∧
      (SymTable_put tg T k v al).2.iSizeIndex = T.iSizeIndex ∧
      (SymTable_put tg T k v al).2.ppBuckets =
        T.ppBuckets.set (SymTable_hash tg k T.uBucketCount)
          ({ pcKey := k, pvValue := v } ::
            T.ppBuckets.getD (SymTable_hash tg k T.uBucketCount) [])) := by
  rw [put_eq_maybeGrow tg T k v al hn hk hnode]
  rcases maybeGrow_cases tg
    { T with
      ppBuckets := T.ppBuckets.set (SymTable_hash tg k T.uBucketCount)
        ({ pcKey := k, pvValue := v } ::
          T.ppBuckets.getD (SymTable_hash tg k T.uBucketCount) [])
      uLength := T.uLength + 1 } al.growOk with ⟨he, hc⟩ | ⟨h7, hlt, hc, hi, hcnt, -, -⟩
  · dsimp only at he hc ⊢
    rw [he]
    constructor
    · rintro ⟨h7, hlt, hg⟩
      exfalso
      rcases hc with hc | hc | hc
      · omega
      · omega
      · rw [hg] at hc; cases hc
    · intro _
      exact ⟨rfl, rfl, rfl⟩
  · dsimp only at h7 hlt hc hi hcnt ⊢
    constructor
    · intro _
      exact ⟨hcnt, hi⟩
    · intro hnot
      exact absurd ⟨h7, hlt, hc⟩ hnot

theorem putAll_nogrow (tg : Target) (l : List (Key × Nat × PutAlloc)) (T : SymTable)
    (h : Inv tg T) (h0 : T.iSizeIndex = 0)
    (hd : (l.map (fun e => e.1)).Nodup)
    (hfresh : ∀ e ∈ l, lookup tg T e.1 = none)
    (hok : ∀ e ∈ l, e.2.2.keyOk = true ∧ e.2.2.nodeOk = true)
    (hlen : T.uLength + l.length ≤ 509) :
    (putAll tg T l).iSizeIndex = 0 ∧ (putAll tg T l).uLength = T.uLength + l.length := by
  induction l generalizing T with
  | nil => exact ⟨h0, rfl⟩
  | cons x rest ih =>
    rw [List.map_cons] at hd
    obtain ⟨hx, hrest⟩ := List.nodup_cons.1 hd
    have hxf := hfresh x (List.mem_cons_self _ _)
    obtain ⟨hxk, hxn⟩ := hok x (List.mem_cons_self _ _)
    have hcnt : T.uBucketCount = 509 := by
      have := h.cnt
      rw [h0] at this
      exact this.symm
    rw [List.length_cons] at hlen
    have hnot : ¬ (T.iSizeIndex < 7 ∧ T.uBucketCount < T.uLength + 1 ∧ x.2.2.growOk = true) := by
      rintro ⟨-, hlt, -⟩
      omega
    obtain ⟨-, g2, -⟩ := (put_growth tg T x.1 x.2.1 x.2.2 hxf hxk hxn).2 hnot
    have hlen1 := (put_spec tg T x.1 x.2.1 x.2.2 h hxf hxk hxn).2.2.2
    have hI1 := put_inv tg T x.1 x.2.1 x.2.2 h
    have hfresh1 : ∀ e ∈ rest, lookup tg (SymTable_put tg T x.1 x.2.1 x.2.2).2 e.1 = none := by
      intro e he
      have hne : e.1 ≠ x.1 := fun heq => hx (List.mem_map.2 ⟨e, he, heq⟩)
      rw [put_lookup_other tg T x.1 x.2.1 x.2.2 h e.1 hne]
      exact hfresh e (List.mem_cons_of_mem _ he)
    have := ih _ hI1 (g2.trans h0) hrest hfresh1
      (fun e he => hok e (List.mem_cons_of_mem _ he)) (by rw [hlen1]; omega)
    show (putAll tg (SymTable_put tg T x.1 x.2.1 x.2.2).2 rest).iSizeIndex = 0 ∧
      (putAll tg (SymTable_put tg T x.1 x.2.1 x.2.2).2 rest).uLength =
        T.uLength + (rest.length + 1)
    rw [this.1, this.2, hlen1]
    exact ⟨rfl, by omega⟩

/-- After 509 puts of different keys into a fresh table the table is still at the first tier;
the 510th put moves it to the second. -/
theorem putAll_fresh_tiers (tg : Target) (T0 : SymTable) (l : List (Key × Nat × PutAlloc))
    (hnew : SymTable_new true true = some T0)
    (hd : (l.map (fun e => e.1)).Nodup)
    (hok : ∀ e ∈ l, e.2.2.keyOk = true ∧ e.2.2.nodeOk = true ∧ e.2.2.growOk = true) :
    (l.length ≤ 509 → (putAll tg T0 l).uBucketCount = 509 ∧ (putAll tg T0 l).iSizeIndex = 0) ∧
    (l.length = 510 → (putAll tg T0 l).uBucketCount = 1021 ∧
      (putAll tg T0 l).iSizeIndex = 1) := by
  have hI0 : Inv tg T0 := (Reachable.new hnew).inv
  have h00 : T0.iSizeIndex = 0 := by rw [new_eq_emptyTable T0 hnew]; rfl
  have hl0 : T0.uLength = 0 := by rw [new_eq_emptyTable T0 hnew]; rfl
  have small : ∀ l2 : List (Key × Nat × PutAlloc), (l2.map (fun e => e.1)).Nodup →
      (∀ e ∈ l2, e.2.2.keyOk = true ∧ e.2.2.nodeOk = true ∧ e.2.2.growOk = true) →
      l2.length ≤ 509 →
      (putAll tg T0 l2).iSizeIndex = 0 ∧ (putAll tg T0 l2).uLength = l2.length ∧
      (putAll tg T0 l2).uBucketCount = 509 := by
    intro l2 hd2 hok2 hlen2
    obtain ⟨a, b⟩ := putAll_nogrow tg l2 T0 hI0 h00 hd2
      (fun e _ => new_lookup_none tg T0 hnew e.1)
      (fun e he => ⟨(hok2 e he).1, (hok2 e he).2.1⟩) (by rw [hl0]; omega)
    refine ⟨a, by rw [b, hl0]; omega, ?_⟩
    have := (putAll_inv tg l2 T0 hI0).cnt
    rw [a] at this
    exact this.symm
  constructor
  · intro hlen
    obtain ⟨a, -, c⟩ := small l hd hok hlen
    exact ⟨c, a⟩
  · intro hlen
    have hsplit : l = l.take 509 ++ l.drop 509 := (List.take_append_drop 509 l).symm
    have hdl : (l.drop 509).length = 1 := by rw [List.length_drop]; omega
    obtain ⟨x, hx⟩ : ∃ x, l.drop 509 = [x] := by
      match hm : l.drop 509, hdl with
      | [x], _ => exact ⟨x, rfl⟩
    rw [hx] at hsplit
    have hd2 : ((l.take 509 ++ [x]).map (fun e => e.1)).Nodup := by rw [← hsplit]; exact hd
    rw [List.map_append, List.nodup_append] at hd2
    obtain ⟨hdt, -, hdisj⟩ := hd2
    have hokt : ∀ e ∈ l.take 509,
        e.2.2.keyOk = true ∧ e.2.2.nodeOk = true ∧ e.2.2.growOk = true :=
      fun e he => hok e (List.mem_of_mem_take he)
    have hxl : x ∈ l := by rw [hsplit]; simp
    obtain ⟨hxk, hxn, hxg⟩ := hok x hxl
    have htl : (l.take 509).length ≤ 509 := by rw [List.length_take]; omega
    have htl2 : (l.take 509).length = 509 := by rw [List.length_take]; omega
    obtain ⟨a, b, c⟩ := small (l.take 509) hdt hokt htl
    have hIt := putAll_inv tg (l.take 509) T0 hI0
    have hxnot : x.1 ∉ (l.take 509).map (fun e => e.1) := by
      intro hm
      exact hdisj hm (by simp)
    have hxfresh : lookup tg (putAll tg T0 (l.take 509)) x.1 = none := by
      have hfr : ∀ e ∈ l.take 509, lookup tg T0 e.1 = none :=
        fun e _ => new_lookup_none tg T0 hnew e.1
      rw [(putAll_lookup tg (l.take 509) T0 hI0 hdt hfr).1 x.1 hxnot]
      exact new_lookup_none tg T0 hnew x.1
    have hg := (put_growth tg (putAll tg T0 (l.take 509)) x.1 x.2.1 x.2.2 hxfresh hxk hxn).1
      ⟨by rw [a]; decide, by rw [b, c, htl2]; decide, hxg⟩
    rw [a] at hg
    rw [hsplit, putAll_append]
    exact hg

/-- C13: on a reachable table, a put of an absent key with all its allocations succeeding
moves the table to the next entry of `kPrimeSizes` exactly when the size index is below 7 and
the new length `uLength + 1` is above the bucket count, and otherwise leaves bucket count and
size index unchanged.  In particular, with all allocations succeeding, a fresh table has 509
buckets after puts of 509 different keys and 1021 buckets after puts of 510 different keys,
and no put changes the bucket count of a reachable table with 65521 buckets. -/
theorem growth_policy (tg : Target) :
    (∀ (T : SymTable) (k : Key) (v : Nat) (al : PutAlloc), Reachable tg T →
      SymTable_contains tg T k = 0 →
      al.keyOk = true → al.nodeOk = true → al.growOk = true →
      (T.iSizeIndex < 7 ∧ T.uBucketCount < SymTable_getLength T + 1 →
        T.uBucketCount = kPrimeSizes.getD T.iSizeIndex.toNat 0 ∧
        (SymTable_put tg T k v al).2.uBucketCount =
          kPrimeSizes.getD (T.iSizeIndex.toNat + 1) 0 ∧
        (SymTable_put tg T k v al).2.iSizeIndex = T.iSizeIndex + 1) ∧
      (¬ (T.iSizeIndex < 7 ∧ T.uBucketCount < SymTable_getLength T + 1) →
        (SymTable_put tg T k v al).2.uBucketCount = T.uBucketCount ∧
        (SymTable_put tg T k v al).2.iSizeIndex = T.iSizeIndex)) ∧
    (∀ (T0 : SymTable) (l : List (Key × Nat × PutAlloc)), SymTable_new true true = some T0 →
      (l.map (fun e => e.1)).Nodup →
      (∀ e ∈ l, e.2.2.keyOk = true ∧ e.2.2.nodeOk = true ∧ e.2.2.growOk = true) →
      (l.length = 509 → (putAll tg T0 l).uBucketCount = 509) ∧
      (l.length = 510 → (putAll tg T0 l).uBucketCount = 1021)) ∧
    (∀ (T : SymTable) (k : Key) (v : Nat) (al : PutAlloc), Reachable tg T →
      T.uBucketCount = 65521 → (SymTable_put tg T k v al).2.uBucketCount = 65521) := by
  refine ⟨?_, ?_, ?_⟩
  · intro T k v al hR habs hk hnode hg
    have hI := hR.inv
    have hn : lookup tg T k = none := (contains_eq_zero_iff tg T k).1 habs
    obtain ⟨g1, g2⟩ := put_growth tg T k v al hn hk hnode
    constructor
    · rintro ⟨h7, hlt⟩
      obtain ⟨a, b⟩ := g1 ⟨h7, hlt, hg⟩
      refine ⟨hI.cnt.symm, ?_, b⟩
      rw [a]
      congr 1
      have := hI.idx.1
      omega
    · intro hnot
      obtain ⟨a, b, -⟩ := g2 (fun h => hnot ⟨h.1, h.2.1⟩)
      exact ⟨a, b⟩
  · intro T0 l hnew hd hok
    obtain ⟨a, b⟩ := putAll_fresh_tiers tg T0 l hnew hd hok
    exact ⟨fun h => (a (by omega)).1, fun h => (b h).1⟩
  · intro T k v al hR hc
    have hI := hR.inv
    have h7 : T.iSizeIndex = 7 := by
      obtain ⟨h0, h7⟩ := hI.idx
      have hcnt := hI.cnt
      rw [hc] at hcnt
      generalize T.iSizeIndex = n at h0 h7 hcnt
      interval_cases n <;> simp [kPrimeSizes] at hcnt ⊢
    by_cases hs : lookup tg T k = none ∧ al.keyOk = true ∧ al.nodeOk = true
    · have := (put_growth tg T k v al hs.1 hs.2.1 hs.2.2).2 (by rw [h7]; omega)
      rw [this.1, hc]
    · rw [put_noop_of_not tg T k v al hs]
      exact hc

/-! ## The two backends agree -/

theorem list_find_eq (l : List Binding) (k : Key) :
    SymTableList.SymTableList_find l k = SymTableHash_find l k := by
  induction l with
  | nil => rfl
  | cons x xs ih =>
    unfold SymTableList.SymTableList_find SymTableHash_find
    rw [ih]

theorem list_storeValue_eq (k : Key) (v : Nat) (l : List Binding) :
    SymTableList.storeValue k v l = storeValue k v l := by
  induction l with
  | nil => rfl
  | cons x xs ih =>
    unfold SymTableList.storeValue storeValue
    rw [ih]

theorem list_removeLoop_eq (k : Key) (l : List Binding) :
    SymTableList.removeLoop k l = removeChain k l := by
  induction l with
  | nil => rfl
  | cons x xs ih =>
    unfold SymTableList.removeLoop removeChain
    rw [ih]

theorem list_mapLoop_eq {σ : Type} (f : Key → Nat → Nat → σ → σ) (x : Nat)
    (l : List Binding) (s : σ) : SymTableList.mapLoop f x l s = mapChain f x l s := by
  induction l generalizing s with
  | nil => rfl
  | cons b bs ih => exact ih _

/-- In a chain without repeated keys `SymTableHash_find` finds exactly the members. -/
theorem find_iff_of_nodup (chain : List Binding) (k : Key) (b : Binding)
    (hnd : (chain.map Binding.pcKey).Nodup) :
    SymTableHash_find chain k = some b ↔ b ∈ chain ∧ b.pcKey = k := by
  constructor
  · exact find_some_mem chain k b
  · rintro ⟨hm, hk⟩
    cases hf : SymTableHash_find chain k with
    | none => exact absurd hk ((find_none_iff _ _).1 hf b hm)
    | some c =>
      obtain ⟨hcm, hck⟩ := find_some_mem _ _ _ hf
      have : c = b := List.inj_on_of_nodup_map hnd hcm hm (hck.trans hk.symm)
      rw [this]

theorem Sim.nodup {tg : Target} {H : SymTable} {L : SymTableList.SymTable}
    (h : Sim tg H L) : (L.pHead.map Binding.pcKey).Nodup :=
  ((h.2.1.map Binding.pcKey).nodup_iff).1 h.1.uniq

/-- Under the simulation relation both backends find the same node for every key. -/
theorem Sim.find_eq {tg : Target} {H : SymTable} {L : SymTableList.SymTable}
    (h : Sim tg H L) (k : Key) : SymTableList.SymTableList_find L.pHead k = lookup tg H k := by
  rw [list_find_eq]
  apply Option.ext
  intro b
  rw [Option.mem_def, Option.mem_def, find_iff_of_nodup _ _ _ h.nodup, h.1.lookup_iff,
    h.2.1.mem_iff]

theorem sim_step (tg : Target) (H : SymTable) (L : SymTableList.SymTable) (op : Op)
    (h : Sim tg H L) :
    (stepHash tg H op).1 = (stepList L op).1 ∧ Sim tg (stepHash tg H op).2 (stepList L op).2 := by
  have hfind := h.find_eq
  obtain ⟨hI, hP, hlen⟩ := h
  cases op with
  | put k v al =>
    show Ret.int (SymTable_put tg H k v al).1 =
        Ret.int (SymTableList.SymTable_put L k v al.keyOk al.nodeOk).1 ∧
      Sim tg (SymTable_put tg H k v al).2 (SymTableList.SymTable_put L k v al.keyOk al.nodeOk).2
    by_cases hs : lookup tg H k = none ∧ al.keyOk = true ∧ al.nodeOk = true
    · obtain ⟨hn, hk, hnode⟩ := hs
      obtain ⟨p1, p2, p3, p4⟩ := put_spec tg H k v al hI hn hk hnode
      have hL : SymTableList.SymTable_put L k v al.keyOk al.nodeOk =
          (1, { pHead := { pcKey := k, pvValue := v } :: L.pHead,
                uLength := L.uLength + 1 }) := by
        unfold SymTableList.SymTable_put
        rw [hfind k, hn, hk, hnode]
        rfl
      rw [hL, p1]
      refine ⟨rfl, p2, p3.trans (List.Perm.cons _ hP), ?_⟩
      rw [p4, hlen]
    · have hL : SymTableList.SymTable_put L k v al.keyOk al.nodeOk = (0, L) := by
        unfold SymTableList.SymTable_put
        rw [hfind k]
        by_cases h1 : (lookup tg H k).isSome = true
        · rw [if_pos h1]
        rw [if_neg h1]
        by_cases h2 : al.keyOk = false
        · rw [if_pos h2]
        rw [if_neg h2]
        by_cases h3 : al.nodeOk = false
        · rw [if_pos h3]
        exfalso
        apply hs
        refine ⟨?_, by simpa using h2, by simpa using h3⟩
        cases hl : lookup tg H k with
        | none => rfl
        | some b => rw [hl] at h1; exact absurd rfl h1
      rw [hL, put_noop_of_not tg H k v al hs]
      exact ⟨rfl, hI, hP, hlen⟩
  | replace k v =>
    show Ret.ptr (SymTable_replace tg H k v).1 = Ret.ptr (SymTableList.SymTable_replace L k v).1 ∧
      Sim tg (SymTable_replace tg H k v).2 (SymTableList.SymTable_replace L k v).2
    cases hl : lookup tg H k with
    | none =>
      have hL : SymTableList.SymTable_replace L k v = (NULL, L) := by
        unfold SymTableList.SymTable_replace
        rw [hfind k, hl]
      rw [hL, replace_absent tg H k v hl]
      exact ⟨rfl, hI, hP, hlen⟩
    | some b =>
      obtain ⟨r1, r2, ⟨R, r3, r4⟩, r5, -⟩ := replace_spec tg H k v b hI hl
      have hLf : SymTableHash_find L.pHead k = some b := by
        rw [← list_find_eq, hfind k, hl]
      obtain ⟨rest, -, q2, q3⟩ := removeChain_of_find_some _ _ _ hLf
      have hL : SymTableList.SymTable_replace L k v =
          (b.pvValue, { L with pHead := storeValue k v L.pHead }) := by
        unfold SymTableList.SymTable_replace
        rw [hfind k, hl, list_storeValue_eq]
      rw [hL, r1]
      refine ⟨rfl, r2, ?_, r5.trans hlen⟩
      have hRrest : R.Perm rest :=
        List.Perm.cons_inv ((r3.symm.trans hP).trans q2)
      exact (r4.trans (List.Perm.cons _ hRrest)).trans (q3 v).symm
  | remove k =>
    show Ret.ptr (SymTable_remove tg H k).1 = Ret.ptr (SymTableList.SymTable_remove L k).1 ∧
      Sim tg (SymTable_remove tg H k).2 (SymTableList.SymTable_remove L k).2
    cases hl : lookup tg H k with
    | none =>
      have hLf : SymTableHash_find L.pHead k = none := by
        rw [← list_find_eq, hfind k, hl]
      have hL : SymTableList.SymTable_remove L k = (NULL, L) := by
        unfold SymTableList.SymTable_remove
        rw [list_removeLoop_eq, removeChain_of_find_none _ _ hLf]
      rw [hL, remove_absent tg H k hl]
      exact ⟨rfl, hI, hP, hlen⟩
    | some b =>
      obtain ⟨r1, r2, r3, r4, -⟩ := remove_spec tg H k b hI hl
      have hLf : SymTableHash_find L.pHead k = some b := by
        rw [← list_find_eq, hfind k, hl]
      obtain ⟨rest, q1, q2, -⟩ := removeChain_of_find_some _ _ _ hLf
      have hL : SymTableList.SymTable_remove L k =
          (b.pvValue, { pHead := rest, uLength := L.uLength - 1 }) := by
        unfold SymTableList.SymTable_remove
        rw [list_removeLoop_eq, q1]
      rw [hL, r1]
      refine ⟨rfl, r2, List.Perm.cons_inv ((r3.symm.trans hP).trans q2), ?_⟩
      show (SymTable_remove tg H k).2.uLength = L.uLength - 1
      omega
  | get k =>
    refine ⟨?_, hI, hP, hlen⟩
    show Ret.ptr (SymTable_get tg H k) = Ret.ptr (SymTableList.SymTable_get L k)
    unfold SymTableList.SymTable_get
    rw [hfind k, get_eq_lookup]
  | contains k =>
    refine ⟨?_, hI, hP, hlen⟩
    show Ret.int (SymTable_contains tg H k) = Ret.int (SymTableList.SymTable_contains L k)
    unfold SymTableList.SymTable_contains
    rw [hfind k, contains_eq_lookup]
  | getLength =>
    refine ⟨?_, hI, hP, hlen⟩
    show Ret.size H.uLength = Ret.size L.uLength
    rw [hlen]

theorem sim_run (tg : Target) (ops : List Op) (H : SymTable) (L : SymTableList.SymTable)
    (h : Sim tg H L) :
    (runHash tg H ops).1 = (runList L ops).1 ∧ Sim tg (runHash tg H ops).2 (runList L ops).2 := by
  induction ops generalizing H L with
  | nil => exact ⟨rfl, h⟩
  | cons op rest ih =>
    obtain ⟨s1, s2⟩ := sim_step tg H L op h
    obtain ⟨i1, i2⟩ := ih _ _ s2
    show (stepHash tg H op).1 :: (runHash tg (stepHash tg H op).2 rest).1 =
        (stepList L op).1 :: (runList (stepList L op).2 rest).1 ∧
      Sim tg (runHash tg (stepHash tg H op).2 rest).2 (runList (stepList L op).2 rest).2
    rw [s1, i1]
    exact ⟨rfl, i2⟩

theorem sim_new (tg : Target) (H0 : SymTable) (L0 : SymTableList.SymTable)
    (hH : SymTable_new true true = some H0) (hL : SymTableList.SymTable_new true = some L0) :
    Sim tg H0 L0 := by
  have hI : Inv tg H0 := (Reachable.new hH).inv
  have h1 : H0 = emptyTable := new_eq_emptyTable H0 hH
  have h2 : L0 = emptyList := (Option.some.inj hL).symm
  refine ⟨hI, ?_, ?_⟩
  · rw [h1, h2]
    show (List.replicate 509 ([] : List Binding)).flatten.Perm []
    rw [List.flatten_replicate_nil]
  · rw [h1, h2]
    rfl

/-- C12: for every sequence of put, replace, remove, get, contains and getLength calls on
fresh tables, where each put has the same key and node allocation outcomes in both backends
(in particular when all allocations succeed), the hash backend and the list backend return
the same value at every call, and afterwards `SymTable_map` makes the same visitor calls in
both, up to their order. -/
theorem backends_agree (tg : Target) (ops : List Op) (H0 : SymTable)
    (L0 : SymTableList.SymTable) (hH : SymTable_new true true = some H0)
    (hL : SymTableList.SymTable_new true = some L0) :
    (runHash tg H0 ops).1 = (runList L0 ops).1 ∧
    ∀ pvExtra : Nat,
      (SymTable_map (runHash tg H0 ops).2 recordCall pvExtra []).Perm
        (SymTableList.SymTable_map (runList L0 ops).2 recordCall pvExtra []) := by
  obtain ⟨h1, hI, hP, -⟩ := sim_run tg ops H0 L0 (sim_new tg H0 L0 hH hL)
  refine ⟨h1, ?_⟩
  intro e
  rw [map_record_eq, hI.bindings_eq]
  unfold SymTableList.SymTable_map
  rw [list_mapLoop_eq, mapChain_record, List.nil_append]
  exact hP.map _

theorem backends_agree_witness :
    SymTable_new true true = some emptyTable ∧ SymTableList.SymTable_new true = some emptyList ∧
    (runHash tg64 emptyTable sampleOps).1 = (runList emptyList sampleOps).1 :=
  ⟨rfl, rfl, (backends_agree tg64 sampleOps emptyTable emptyList rfl rfl).1⟩

/-! ## Chain order -/

theorem ReachableSince.since_reachable {tg : Target} {T : SymTable} {o : List Key}
    (h : ReachableSince tg T o) : Reachable tg T := by
  induction h with
  | new hnew => exact Reachable.new hnew
  | put k v al _ ih => exact Reachable.put k v al ih
  | replace k v _ ih => exact Reachable.replace k v ih
  | remove k _ ih => exact Reachable.remove k ih

theorem getD_sublist_flatten {α : Type} (L : List (List α)) (i : Nat) :
    (L.getD i []).Sublist L.flatten := by
  induction L generalizing i with
  | nil => exact List.Sublist.refl _
  | cons x xs ih =>
    cases i with
    | zero => exact List.sublist_append_left x xs.flatten
    | succ j => exact List.sublist_append_of_sublist_right (ih j)

theorem Inv.chain_nodup {tg : Target} {T : SymTable} (h : Inv tg T) (i : Nat) :
    ((T.ppBuckets.getD i []).map Binding.pcKey).Nodup :=
  List.Nodup.sublist ((getD_sublist_flatten T.ppBuckets i).map Binding.pcKey) h.uniq

theorem storeValue_keys (k : Key) (v : Nat) (chain : List Binding) :
    (storeValue k v chain).map Binding.pcKey = chain.map Binding.pcKey := by
  induction chain with
  | nil => rfl
  | cons x xs ih =>
    unfold storeValue
    by_cases hx : x.pcKey = k
    · rw [if_pos hx]; rfl
    · rw [if_neg hx, List.map_cons, List.map_cons, ih]

theorem removeChain_keys (k : Key) (chain : List Binding) (v : Nat) (rest : List Binding)
    (hnd : (chain.map Binding.pcKey).Nodup) (h : removeChain k chain = some (v, rest)) :
    rest.map Binding.pcKey = (chain.map Binding.pcKey).filter (fun x => decide (x ≠ k)) := by
  induction chain generalizing rest v with
  | nil => simp [removeChain] at h
  | cons x xs ih =>
    rw [List.map_cons] at hnd
    obtain ⟨hx, hxs⟩ := List.nodup_cons.1 hnd
    unfold removeChain at h
    by_cases hk : x.pcKey = k
    · rw [if_pos hk] at h
      have hr : xs = rest := (Prod.mk.inj (Option.some.inj h)).2
      subst hr
      rw [List.map_cons, List.filter_cons_of_neg (by simpa using hk)]
      symm
      rw [List.filter_eq_self]
      intro a ha
      have : a ≠ k := by
        intro hak
        rw [hak, ← hk] at ha
        exact hx ha
      simpa using this
    · rw [if_neg hk] at h
      cases hr : removeChain k xs with
      | none => rw [hr] at h; cases h
      | some r =>
        obtain ⟨v2, rest2⟩ := r
        rw [hr] at h
        have hrest : x :: rest2 = rest := (Prod.mk.inj (Option.some.inj h)).2
        subst hrest
        rw [List.map_cons, List.map_cons, List.filter_cons_of_pos (by simpa using hk),
          ih v2 rest2 hxs hr]

/-- After `SymTable_remove` of `k` every chain holds its former keys other than `k`, in their
former order. -/
theorem remove_bucket_keys (tg : Target) (T : SymTable) (k : Key) (h : Inv tg T) (i : Nat) :
    ((SymTable_remove tg T k).2.ppBuckets.getD i []).map Binding.pcKey =
      ((T.ppBuckets.getD i []).map Binding.pcKey).filter (fun x => decide (x ≠ k)) := by
  have hlt := h.hash_lt_length k
  cases hl : lookup tg T k with
  | none =>
    rw [remove_absent tg T k hl]
    symm
    rw [List.filter_eq_self]
    intro a ha
    obtain ⟨b, hb, rfl⟩ := List.mem_map.1 ha
    have : b.pcKey ≠ k :=
      (h.lookup_none_iff k).1 hl b ((mem_flatten_iff_getD _ _).2 ⟨i, hb⟩)
    simpa using this
  | some b =>
    obtain ⟨rest, hr, -, -⟩ := removeChain_of_find_some _ _ _ hl
    have hbk : (SymTable_remove tg T k).2.ppBuckets =
        T.ppBuckets.set (SymTable_hash tg k T.uBucketCount) rest := by
      unfold SymTable_remove
      dsimp only
      rw [hr]
    rw [hbk]
    by_cases hi : SymTable_hash tg k T.uBucketCount = i
    · subst hi
      rw [getD_set_self _ _ _ hlt]
      exact removeChain_keys k _ _ rest (h.chain_nodup _) hr
    · rw [getD_set_other _ _ _ _ hi]
      symm
      rw [List.filter_eq_self]
      intro a ha
      obtain ⟨c, hc, rfl⟩ := List.mem_map.1 ha
      have : c.pcKey ≠ k := by
        intro hck
        apply hi
        rw [← hck]
        exact h.place i c hc
      simpa using this

/-- `SymTable_replace` leaves the keys of every chain in place. -/
theorem replace_bucket_keys (tg : Target) (T : SymTable) (k : Key) (v : Nat) (h : Inv tg T)
    (i : Nat) :
    ((SymTable_replace tg T k v).2.ppBuckets.getD i []).map Binding.pcKey =
      (T.ppBuckets.getD i []).map Binding.pcKey := by
  have hlt := h.hash_lt_length k
  cases hl : lookup tg T k with
  | none => rw [replace_absent tg T k v hl]
  | some b =>
    have hfind : SymTableHash_find
        (T.ppBuckets.getD (SymTable_hash tg k T.uBucketCount) []) k = some b := hl
    have hbk : (SymTable_replace tg T k v).2.ppBuckets =
        T.ppBuckets.set (SymTable_hash tg k T.uBucketCount)
          (storeValue k v (T.ppBuckets.getD (SymTable_hash tg k T.uBucketCount) [])) := by
      unfold SymTable_replace
      dsimp only
      rw [hfind]
    rw [hbk]
    by_cases hi : SymTable_hash tg k T.uBucketCount = i
    · subst hi
      rw [getD_set_self _ _ _ hlt, storeValue_keys]
    · rw [getD_set_other _ _ _ _ hi]

/-- The chains that `rehashChain` builds: the moved bindings of each chain in reverse order of
the walk, in front of what the chain held before. -/
theorem rehashChain_getD (tg : Target) (n : Nat) (hn : 0 < n) (bs : List Binding)
    (acc : List (List Binding)) (hl : acc.length = n) (j : Nat) :
    (rehashChain tg n bs acc).getD j [] =
      (bs.filter (fun b => decide (SymTable_hash tg b.pcKey n = j))).reverse ++
        acc.getD j [] := by
  induction bs generalizing acc with
  | nil => rfl
  | cons x xs ih =>
    have hlt : SymTable_hash tg x.pcKey n < acc.length := by
      rw [hl]; exact hash_lt tg _ _ hn
    have hl2 : (acc.set (SymTable_hash tg x.pcKey n)
        (x :: acc.getD (SymTable_hash tg x.pcKey n) [])).length = n := by
      rw [List.length_set]; exact hl
    show (rehashChain tg n xs (acc.set (SymTable_hash tg x.pcKey n)
        (x :: acc.getD (SymTable_hash tg x.pcKey n) []))).getD j [] = _
    rw [ih _ hl2]
    by_cases hj : SymTable_hash tg x.pcKey n = j
    · subst hj
      rw [getD_set_self _ _ _ hlt, List.filter_cons_of_pos (by simp), List.reverse_cons,
        List.append_assoc]
      rfl
    · rw [getD_set_other _ _ _ _ hj, List.filter_cons_of_neg (by simpa using hj)]

theorem getD_replicate_nil {α : Type} (n j : Nat) :
    (List.replicate n ([] : List α)).getD j [] = [] := by
  induction n generalizing j with
  | zero => rfl
  | succ m ih =>
    cases j with
    | zero => rfl
    | succ i => exact ih i

/-- When `SymTableHash_maybeGrow` grows a table with the invariant, every new chain holds its
bindings in the reverse of the order in which the old table is walked. -/
theorem maybeGrow_chain (tg : Target) (T : SymTable) (c : Bool) (h : Inv tg T)
    (hg : (SymTableHash_maybeGrow tg T c).uBucketCount ≠ T.uBucketCount) (j : Nat) :
    (SymTableHash_maybeGrow tg T c).ppBuckets.getD j [] =
      ((SymTable_bindings T).filter (fun b => decide
        (SymTable_hash tg b.pcKey (SymTableHash_maybeGrow tg T c).uBucketCount = j))).reverse := by
  rcases maybeGrow_cases tg T c with ⟨he, -⟩ | ⟨h7, -, -, -, hc, -, hb⟩
  · rw [he] at hg; exact absurd rfl hg
  · have hn : 0 < kPrimeSizes.getD (T.iSizeIndex + 1).toNat 0 := by
      have := kPrimeSizes_step T.iSizeIndex h.idx.1 h7
      omega
    rw [hb, hc, rehashChain_getD tg _ hn _ _ (List.length_replicate _ _), getD_replicate_nil,
      List.append_nil]

theorem recentAfterPut_cases (tg : Target) (T : SymTable) (k : Key) (v : Nat) (al : PutAlloc)
    (o : List Key) (h : Inv tg T) :
    (SymTable_put tg T k v al = (0, T) ∧ recentAfterPut tg T k v al o = o) ∨
    ((SymTable_put tg T k v al).2.uBucketCount = T.uBucketCount ∧
      (SymTable_put tg T k v al).2.ppBuckets =
        T.ppBuckets.set (SymTable_hash tg k T.uBucketCount)
          ({ pcKey := k, pvValue := v } ::
            T.ppBuckets.getD (SymTable_hash tg k T.uBucketCount) []) ∧
      recentAfterPut tg T k v al o = k :: o) ∨
    recentAfterPut tg T k v al o = [] := by
  by_cases hs : lookup tg T k = none ∧ al.keyOk = true ∧ al.nodeOk = true
  · obtain ⟨hn, hk, hnode⟩ := hs
    have h1 := (put_spec tg T k v al h hn hk hnode).1
    have hne : ¬ (SymTable_put tg T k v al).1 = 0 := by rw [h1]; decide
    obtain ⟨g1, g2⟩ := put_growth tg T k v al hn hk hnode
    by_cases hc : T.iSizeIndex < 7 ∧ T.uBucketCount < T.uLength + 1 ∧ al.growOk = true
    · right; right
      have hstep := kPrimeSizes_step T.iSizeIndex h.idx.1 hc.1
      rw [h.cnt] at hstep
      have hcnt := (g1 hc).1
      have hne2 : ¬ (SymTable_put tg T k v al).2.uBucketCount = T.uBucketCount := by
        rw [hcnt]; omega
      unfold recentAfterPut
      rw [if_neg hne, if_neg hne2]
    · right; left
      obtain ⟨a, -, b⟩ := g2 hc
      refine ⟨a, b, ?_⟩
      unfold recentAfterPut
      rw [if_neg hne, if_pos a]
  · left
    have := put_noop_of_not tg T k v al hs
    refine ⟨this, ?_⟩
    unfold recentAfterPut
    rw [this]
    exact if_pos rfl

theorem recent_prefix (tg : Target) (T : SymTable) (o : List Key)
    (hR : ReachableSince tg T o) (i : Nat) :
    ∃ older : List Key, (T.ppBuckets.getD i []).map Binding.pcKey =
      o.filter (fun k => decide (SymTable_hash tg k T.uBucketCount = i)) ++ older := by
  induction hR generalizing i with
  | new hnew => exact ⟨_, (List.nil_append _).symm⟩
  | @put T o k v al hT ih =>
    have hI := hT.since_reachable.inv
    rcases recentAfterPut_cases tg T k v al o hI with ⟨h1, h2⟩ | ⟨h1, h2, h3⟩ | h1
    · rw [h2, h1]
      exact ih i
    · rw [h3, h2, h1]
      obtain ⟨older, ho⟩ := ih i
      refine ⟨older, ?_⟩
      by_cases hi : SymTable_hash tg k T.uBucketCount = i
      · rw [List.filter_cons_of_pos (by simpa using hi)]
        subst hi
        rw [getD_set_self _ _ _ (hI.hash_lt_length k), List.map_cons, ho]
        rfl
      · rw [List.filter_cons_of_neg (by simpa using hi), getD_set_other _ _ _ _ hi]
        exact ho
    · rw [h1]
      exact ⟨_, (List.nil_append _).symm⟩
  | @replace T o k v hT ih =>
    have hI := hT.since_reachable.inv
    rw [replace_bucket_keys tg T k v hI i, (replace_fields tg T k v).2.1]
    exact ih i
  | @remove T o k hT ih =>
    have hI := hT.since_reachable.inv
    obtain ⟨older, ho⟩ := ih i
    rw [remove_bucket_keys tg T k hI i, (remove_fields tg T k).2, ho, List.filter_append]
    refine ⟨older.filter (fun x => decide (x ≠ k)), ?_⟩
    congr 1
    rw [List.filter_filter, List.filter_filter]
    congr 1
    funext a
    exact Bool.and_comm _ _

theorem keyOf_inj (i j : Nat) (hi : i < 1275) (hj : j < 1275) (h : keyOf i = keyOf j) :
    i = j := by
  have hv : (keyOf i).val = (keyOf j).val := congrArg Subtype.val h
  have hl : [i % 5 + 1, (i / 5) % 255 + 1] = [j % 5 + 1, (j / 5) % 255 + 1] := hv
  have h1 : i % 5 + 1 = j % 5 + 1 := List.head_eq_of_cons_eq hl
  have h2 : [(i / 5) % 255 + 1] = [(j / 5) % 255 + 1] := List.tail_eq_of_cons_eq hl
  have h3 : (i / 5) % 255 + 1 = (j / 5) % 255 + 1 := List.head_eq_of_cons_eq h2
  omega

theorem entries_keys (n : Nat) : (entries n).map (fun e => e.1) = (List.range n).map keyOf := by
  unfold entries
  rw [List.map_map]
  rfl

theorem entries_nodup (n : Nat) (hn : n ≤ 1275) : ((entries n).map (fun e => e.1)).Nodup := by
  rw [entries_keys]
  apply List.Nodup.map_on _ (List.nodup_range n)
  intro x hx y hy hxy
  rw [List.mem_range] at hx hy
  exact keyOf_inj x y (by omega) (by omega) hxy

theorem entries_succ (n : Nat) : entries (n + 1) = entries n ++ [(keyOf n, n + 1, allocOk)] := by
  unfold entries
  rw [List.range_succ, List.map_append]
  rfl

theorem entries_ok (n : Nat) :
    ∀ e ∈ entries n, e.2.2.keyOk = true ∧ e.2.2.nodeOk = true ∧ e.2.2.growOk = true := by
  intro e he
  unfold entries at he
  obtain ⟨i, -, rfl⟩ := List.mem_map.1 he
  exact ⟨rfl, rfl, rfl⟩

theorem mem_getD_set_cons {α : Type} (L : List (List α)) (i j : Nat) (x b : α)
    (hj : j < L.length) (hb : b ∈ L.getD i []) :
    b ∈ (L.set j (x :: L.getD j [])).getD i [] := by
  by_cases h : j = i
  · subst h
    rw [getD_set_self _ _ _ hj]
    exact List.mem_cons_of_mem _ hb
  · rw [getD_set_other _ _ _ _ h]
    exact hb

theorem pair_sublist_flatten {α : Type} (L : List (List α)) (i j : Nat) (x y : α)
    (hij : i < j) (hx : x ∈ L.getD i []) (hy : y ∈ L.getD j []) :
    List.Sublist [x, y] L.flatten := by
  induction L generalizing i j with
  | nil => simp at hx
  | cons c cs ih =>
    cases j with
    | zero => omega
    | succ j2 =>
      cases i with
      | zero =>
        have h1 : List.Sublist [x] c := List.singleton_sublist.2 hx
        have h2 : List.Sublist [y] cs.flatten :=
          List.singleton_sublist.2 ((mem_flatten_iff_getD _ _).2 ⟨j2, hy⟩)
        exact h1.append h2
      | succ i2 =>
        exact List.sublist_append_of_sublist_right (ih i2 j2 (by omega) hx hy)

theorem pair_sublist_asymm {α : Type} (l : List α) (a b : α) (hnd : l.Nodup)
    (h : List.Sublist [a, b] l) : ¬ List.Sublist [b, a] l := by
  induction l with
  | nil => cases h
  | cons x xs ih =>
    obtain ⟨hx, hxs⟩ := List.nodup_cons.1 hnd
    intro h2
    cases h with
    | cons _ h1 =>
      cases h2 with
      | cons _ h3 => exact ih hxs h1 h3
      | cons₂ _ h3 =>
        exact hx (h1.subset (List.mem_cons_of_mem _ (List.mem_singleton_self _)))
    | cons₂ _ h1 =>
      cases h2 with
      | cons _ h3 =>
        exact hx (h3.subset (List.mem_cons_of_mem _ (List.mem_singleton_self _)))
      | cons₂ _ h3 =>
        exact hx (h1.subset (List.mem_singleton_self _))

theorem entries_getElem? (n i : Nat) (h : i < n) :
    (entries n)[i]? = some (keyOf i, i + 1, allocOk) := by
  unfold entries
  rw [List.getElem?_map, List.getElem?_range h]
  rfl

/-- When a put grows the table, two bindings that lay in different buckets and land in the
same new bucket stand there in the reverse of the order of their old buckets. -/
theorem growth_reverses (tg : Target) (T : SymTable) (k : Key) (v : Nat) (al : PutAlloc)
    (x y : Binding) (i j m : Nat) (hI : Inv tg T) (hn : lookup tg T k = none)
    (hk : al.keyOk = true) (hnode : al.nodeOk = true)
    (hgrow : (SymTable_put tg T k v al).2.uBucketCount ≠ T.uBucketCount)
    (hij : i < j) (hx : x ∈ T.ppBuckets.getD i []) (hy : y ∈ T.ppBuckets.getD j [])
    (hxm : SymTable_hash tg x.pcKey (SymTable_put tg T k v al).2.uBucketCount = m)
    (hym : SymTable_hash tg y.pcKey (SymTable_put tg T k v al).2.uBucketCount = m) :
    List.Sublist [y, x] ((SymTable_put tg T k v al).2.ppBuckets.getD m []) := by
  have hput := put_eq_maybeGrow tg T k v al hn hk hnode
  have hpre := put_pre_inv tg T k v hI hn
  have hlt := hI.hash_lt_length k
  rw [hput] at hgrow hxm hym ⊢
  dsimp only at hgrow hxm hym ⊢
  rw [maybeGrow_chain tg _ _ hpre hgrow m, hpre.bindings_eq]
  have hpair : List.Sublist [x, y]
      (T.ppBuckets.set (SymTable_hash tg k T.uBucketCount)
        ({ pcKey := k, pvValue := v } ::
          T.ppBuckets.getD (SymTable_hash tg k T.uBucketCount) [])).flatten :=
    pair_sublist_flatten _ i j _ _ hij
      (mem_getD_set_cons _ _ _ _ _ hlt hx) (mem_getD_set_cons _ _ _ _ _ hlt hy)
  have hf := (hpair.filter (fun b => decide (SymTable_hash tg b.pcKey
    (SymTableHash_maybeGrow tg
      { T with
        ppBuckets := T.ppBuckets.set (SymTable_hash tg k T.uBucketCount)
          ({ pcKey := k, pvValue := v } ::
            T.ppBuckets.getD (SymTable_hash tg k T.uBucketCount) [])
        uLength := T.uLength + 1 } al.growOk).uBucketCount = m))).reverse
  rw [List.filter_cons_of_pos (by simpa using hxm),
    List.filter_cons_of_pos (by simpa using hym), List.filter_nil] at hf
  exact hf

/-- In `grownTable` the binding of key number 0 (put first) stands before the binding of key
number 9 (put later) in the chain of bucket 256. -/
theorem grownTable_chain :
    Inv tg64 grownTable ∧
    List.Sublist
      [({ pcKey := keyOf 0, pvValue := 1 } : Binding), { pcKey := keyOf 9, pvValue := 10 }]
      (grownTable.ppBuckets.getD 256 []) := by
  have hI0 : Inv tg64 emptyTable := reachable_emptyTable.inv
  have hnd : ((entries 509).map (fun e => e.1)).Nodup := entries_nodup 509 (by decide)
  have hfr : ∀ e ∈ entries 509, lookup tg64 emptyTable e.1 = none :=
    fun e _ => new_lookup_none tg64 emptyTable rfl e.1
  have hlen509 : (entries 509).length = 509 := by
    unfold entries
    rw [List.length_map, List.length_range]
  have hnot : keyOf 509 ∉ (entries 509).map (fun e => e.1) := by
    rw [entries_keys]
    intro hm
    obtain ⟨i, hi, hk⟩ := List.mem_map.1 hm
    rw [List.mem_range] at hi
    have := keyOf_inj i 509 (by omega) (by decide) hk
    omega
  have hlook := putAll_lookup tg64 (entries 509) emptyTable hI0 hnd hfr
  have hnog := putAll_nogrow tg64 (entries 509) emptyTable hI0 rfl hnd hfr
    (fun e he => ⟨(entries_ok 509 e he).1, (entries_ok 509 e he).2.1⟩)
    (by rw [hlen509]; decide)
  have hI509 : Inv tg64 (putAll tg64 emptyTable (entries 509)) := putAll_inv tg64 _ _ hI0
  have hmemE : (keyOf 0, 0 + 1, allocOk) ∈ entries 509 :=
    List.mem_map.2 ⟨0, List.mem_range.2 (by decide), rfl⟩
  have hmemL : (keyOf 9, 9 + 1, allocOk) ∈ entries 509 :=
    List.mem_map.2 ⟨9, List.mem_range.2 (by decide), rfl⟩
  have hlE := hlook.2 _ hmemE rfl rfl
  have hlL := hlook.2 _ hmemL rfl rfl
  have hfresh : lookup tg64 (putAll tg64 emptyTable (entries 509)) (keyOf 509) = none := by
    rw [hlook.1 _ hnot]
    exact new_lookup_none tg64 emptyTable rfl _
  unfold grownTable
  rw [entries_succ 509, putAll_concat]
  generalize putAll tg64 emptyTable (entries 509) = T at hlE hlL hfresh hnog hI509 ⊢
  have hI := hI509
  obtain ⟨hidx, hlen⟩ := hnog
  have hcnt : T.uBucketCount = 509 := by
    have := hI.cnt
    rw [hidx] at this
    exact this.symm
  have hE := (find_some_mem _ _ _ hlE).1
  have hL := (find_some_mem _ _ _ hlL).1
  rw [hcnt] at hE hL
  have hhE : SymTable_hash tg64 (keyOf 0) 509 = 448 := by decide
  have hhL : SymTable_hash tg64 (keyOf 9) 509 = 201 := by decide
  rw [hhE] at hE
  rw [hhL] at hL
  have hcount : (SymTable_put tg64 T (keyOf 509) (509 + 1) allocOk).2.uBucketCount = 1021 := by
    have := ((put_growth tg64 T (keyOf 509) (509 + 1) allocOk hfresh rfl rfl).1
      ⟨by rw [hidx]; decide, by rw [hcnt, hlen, hlen509]; decide, rfl⟩).1
    rw [hidx] at this
    exact this
  refine ⟨put_inv tg64 T _ _ _ hI, ?_⟩
  apply growth_reverses tg64 T (keyOf 509) (509 + 1) allocOk
    { pcKey := keyOf 9, pvValue := 10 } { pcKey := keyOf 0, pvValue := 1 } 201 448 256
    hI hfresh rfl rfl
  · rw [hcount, hcnt]; decide
  · decide
  · exact hL
  · exact hE
  · rw [hcount]; decide
  · rw [hcount]; decide

/-- C16, as stated, fails after a growth: 510 different keys are put into a fresh table, key
number 0 at call 0 and key number 9 at call 9; the last put grows the table to 1021 buckets;
afterwards both keys lie in bucket 256 and `SymTable_map` visits key number 0, whose put
happened earlier, before key number 9, and not after it. -/
theorem traversal_order_counterexample :
    Reachable tg64 grownTable ∧
    ((entries 510).map (fun e => e.1)).Nodup ∧
    (entries 510)[0]? = some (keyOf 0, 1, allocOk) ∧
    (entries 510)[9]? = some (keyOf 9, 10, allocOk) ∧
    List.Sublist
      [({ pcKey := keyOf 0, pvValue := 1 } : Binding), { pcKey := keyOf 9, pvValue := 10 }]
      (grownTable.ppBuckets.getD 256 []) ∧
    List.Sublist [(keyOf 0, 1, 0), (keyOf 9, 10, 0)]
      (SymTable_map grownTable recordCall 0 []) ∧
    ¬ List.Sublist [(keyOf 9, 10, 0), (keyOf 0, 1, 0)]
      (SymTable_map grownTable recordCall 0 []) := by
  obtain ⟨hI, hchain⟩ := grownTable_chain
  have hcalls : List.Sublist [(keyOf 0, 1, 0), (keyOf 9, 10, 0)]
      (SymTable_map grownTable recordCall 0 []) := by
    rw [map_record_eq, hI.bindings_eq]
    exact (hchain.trans (getD_sublist_flatten _ 256)).map
      (fun b : Binding => (b.pcKey, b.pvValue, 0))
  have hnd : (SymTable_map grownTable recordCall 0 []).Nodup := by
    apply List.Nodup.of_map (fun c : Key × Nat × Nat => c.1)
    rw [map_record_eq, List.map_map, hI.bindings_eq]
    exact hI.uniq
  exact ⟨putAll_reachable tg64 _ _ reachable_emptyTable, entries_nodup 510 (by decide),
    entries_getElem? 510 0 (by decide), entries_getElem? 510 9 (by decide), hchain, hcalls,
    pair_sublist_asymm _ _ _ hnd hcalls⟩

/-- C16, amended: `SymTable_map` visits the buckets in ascending index order and each chain
from its head.  In every reachable table the keys inserted after the table last grew (and not
removed since) stand at the front of their chains, a later put before an earlier one, ahead
of the keys that were in the table when it last grew.  And when `SymTableHash_maybeGrow` grows
the table, each new chain holds its bindings in the reverse of the order in which the old
table is walked, so their order is not an insertion order. -/
theorem traversal_order (tg : Target) (T : SymTable) (recent : List Key)
    (hR : ReachableSince tg T recent) :
    (∀ pvExtra : Nat, SymTable_map T recordCall pvExtra [] =
      (List.range T.uBucketCount).flatMap
        (fun i => (T.ppBuckets.getD i []).map (fun b => (b.pcKey, b.pvValue, pvExtra)))) ∧
    (∀ i : Nat, ∃ older : List Key, (T.ppBuckets.getD i []).map Binding.pcKey =
      recent.filter (fun k => decide (SymTable_hash tg k T.uBucketCount = i)) ++ older) ∧
    (∀ (c : Bool) (j : Nat),
      (SymTableHash_maybeGrow tg T c).uBucketCount ≠ T.uBucketCount →
      (SymTableHash_maybeGrow tg T c).ppBuckets.getD j [] =
        ((SymTable_bindings T).filter (fun b => decide
          (SymTable_hash tg b.pcKey (SymTableHash_maybeGrow tg T c).uBucketCount = j))).reverse) := by
  refine ⟨?_, recent_prefix tg T recent hR, ?_⟩
  · intro e
    rw [map_record_eq]
    unfold SymTable_bindings
    rw [List.map_flatMap]
  · intro c j hg
    exact maybeGrow_chain tg T c hR.since_reachable.inv hg j

/-! ## Witnesses at the first growth threshold -/

theorem entries_length (n : Nat) : (entries n).length = n := by
  unfold entries
  rw [List.length_map, List.length_range]

theorem getLength_eq (T : SymTable) : SymTable_getLength T = T.uLength := rfl

/-- The table after the first 509 puts of `entries`: still 509 buckets, 509 bindings, and key
number 509 absent. -/
theorem fullTable_facts :
    Reachable tg64 (putAll tg64 emptyTable (entries 509)) ∧
    (putAll tg64 emptyTable (entries 509)).uBucketCount = 509 ∧
    SymTable_getLength (putAll tg64 emptyTable (entries 509)) = 509 ∧
    SymTable_contains tg64 (putAll tg64 emptyTable (entries 509)) (keyOf 509) = 0 := by
  have hI0 : Inv tg64 emptyTable := reachable_emptyTable.inv
  have hnd : ((entries 509).map (fun e => e.1)).Nodup := entries_nodup 509 (by decide)
  have hfr : ∀ e ∈ entries 509, lookup tg64 emptyTable e.1 = none :=
    fun e _ => new_lookup_none tg64 emptyTable rfl e.1
  have hnot : keyOf 509 ∉ (entries 509).map (fun e => e.1) := by
    rw [entries_keys]
    intro hm
    obtain ⟨i, hi, hk⟩ := List.mem_map.1 hm
    rw [List.mem_range] at hi
    have := keyOf_inj i 509 (by omega) (by decide) hk
    omega
  have hfresh : lookup tg64 (putAll tg64 emptyTable (entries 509)) (keyOf 509) = none := by
    rw [(putAll_lookup tg64 (entries 509) emptyTable hI0 hnd hfr).1 _ hnot]
    exact new_lookup_none tg64 emptyTable rfl _
  obtain ⟨t1, -⟩ := putAll_fresh_tiers tg64 emptyTable (entries 509) rfl hnd (entries_ok 509)
  obtain ⟨-, hlen⟩ := putAll_nogrow tg64 (entries 509) emptyTable hI0 rfl hnd hfr
    (fun e he => ⟨(entries_ok 509 e he).1, (entries_ok 509 e he).2.1⟩)
    (by rw [entries_length]; decide)
  refine ⟨putAll_reachable tg64 _ _ reachable_emptyTable,
    (t1 (by rw [entries_length])).1, ?_, (contains_eq_zero_iff _ _ _).2 hfresh⟩
  rw [getLength_eq, hlen, entries_length]
  rfl

theorem growth_policy_witness :
    (Reachable tg64 tableA ∧ SymTable_contains tg64 tableA keyB = 0 ∧
      ¬ (tableA.iSizeIndex < 7 ∧ tableA.uBucketCount < SymTable_getLength tableA + 1) ∧
      (SymTable_put tg64 tableA keyB 6 allocOk).2.uBucketCount = tableA.uBucketCount) ∧
    ((entries 509).length = 509 ∧ (putAll tg64 emptyTable (entries 509)).uBucketCount = 509) ∧
    ((entries 510).length = 510 ∧ (putAll tg64 emptyTable (entries 510)).uBucketCount = 1021) :=
  have hnot : ¬ (tableA.iSizeIndex < 7 ∧
      tableA.uBucketCount < SymTable_getLength tableA + 1) := by decide
  have h509 := (growth_policy tg64).2.1 emptyTable (entries 509) rfl
    (entries_nodup 509 (by decide)) (entries_ok 509)
  have h510 := (growth_policy tg64).2.1 emptyTable (entries 510) rfl
    (entries_nodup 510 (by decide)) (entries_ok 510)
  ⟨⟨reachable_tableA, by decide, hnot,
    (((growth_policy tg64).1 tableA keyB 6 allocOk reachable_tableA (by decide) rfl rfl rfl).2
      hnot).1⟩,
    ⟨entries_length 509, h509.1 (entries_length 509)⟩,
    ⟨entries_length 510, h510.2 (entries_length 510)⟩⟩

theorem growth_failure_swallowed_witness :
    (Reachable tg64 (putAll tg64 emptyTable (entries 509)) ∧
      (putAll tg64 emptyTable (entries 509)).uBucketCount = 509 ∧
      SymTable_getLength (putAll tg64 emptyTable (entries 509)) = 509 ∧
      SymTable_contains tg64 (putAll tg64 emptyTable (entries 509)) (keyOf 509) = 0) ∧
    (SymTable_put tg64 (putAll tg64 emptyTable (entries 509)) (keyOf 509) 510
        allocGrowFails).1 = 1 ∧
    SymTable_getLength (SymTable_put tg64 (putAll tg64 emptyTable (entries 509)) (keyOf 509) 510
        allocGrowFails).2 = SymTable_getLength (putAll tg64 emptyTable (entries 509)) + 1 ∧
    (SymTable_put tg64 (putAll tg64 emptyTable (entries 509)) (keyOf 509) 510
        allocGrowFails).2.uBucketCount = (putAll tg64 emptyTable (entries 509)).uBucketCount :=
  have h := growth_failure_swallowed tg64 (putAll tg64 emptyTable (entries 509)) (keyOf 509) 510
    allocGrowFails fullTable_facts.1 fullTable_facts.2.2.2 rfl rfl rfl
  ⟨fullTable_facts, h.1, h.2.2.2.1, h.2.2.2.2.1⟩

/-! ## Witnesses with growth and with shared buckets -/

/-- A put with a failing growth allocation on a full first-tier table leaves a table that
`SymTableHash_maybeGrow` grows to the second tier. -/
theorem overfull_step (tg : Target) (T : SymTable) (k : Key) (v : Nat) (h : Inv tg T)
    (hidx : T.iSizeIndex = 0) (hlen : T.uLength = 509) (hn : lookup tg T k = none) :
    (SymTable_put tg T k v allocGrowFails).2.uBucketCount = 509 ∧
    (SymTable_put tg T k v allocGrowFails).2.uLength = 510 ∧
    (SymTableHash_maybeGrow tg (SymTable_put tg T k v allocGrowFails).2 true).uBucketCount =
      1021 := by
  have hcnt : T.uBucketCount = 509 := by
    have := h.cnt
    rw [hidx] at this
    exact this.symm
  have hnot : ¬ (T.iSizeIndex < 7 ∧ T.uBucketCount < T.uLength + 1 ∧
      allocGrowFails.growOk = true) := by
    rintro ⟨-, -, hg⟩
    cases hg
  obtain ⟨g1, g2, -⟩ := (put_growth tg T k v allocGrowFails hn rfl rfl).2 hnot
  have g3 := (put_spec tg T k v allocGrowFails h hn rfl rfl).2.2.2
  have hc : (SymTable_put tg T k v allocGrowFails).2.uBucketCount = 509 := g1.trans hcnt
  have hl : (SymTable_put tg T k v allocGrowFails).2.uLength = 510 := by
    rw [g3, hlen]
  refine ⟨hc, hl, ?_⟩
  rcases maybeGrow_cases tg (SymTable_put tg T k v allocGrowFails).2 true with
    ⟨-, hx⟩ | ⟨-, -, -, -, hy, -, -⟩
  · exfalso
    rcases hx with hx | hx | hx
    · rw [g2, hidx] at hx
      exact absurd hx (by decide)
    · rw [hl, hc] at hx
      exact absurd hx (by decide)
    · cases hx
  · rw [hy, g2, hidx]
    rfl

/-- The table `overfullTable` is reachable, holds 510 bindings in 509 buckets, and
`SymTableHash_maybeGrow` grows it to 1021 buckets. -/
theorem overfullTable_facts :
    Reachable tg64 overfullTable ∧ overfullTable.uBucketCount = 509 ∧
    overfullTable.uLength = 510 ∧
    (SymTableHash_maybeGrow tg64 overfullTable true).uBucketCount = 1021 := by
  have hI0 : Inv tg64 emptyTable := reachable_emptyTable.inv
  have hnd : ((entries 509).map (fun e => e.1)).Nodup := entries_nodup 509 (by decide)
  have hfr : ∀ e ∈ entries 509, lookup tg64 emptyTable e.1 = none :=
    fun e _ => new_lookup_none tg64 emptyTable rfl e.1
  obtain ⟨hidx, hlen⟩ := putAll_nogrow tg64 (entries 509) emptyTable hI0 rfl hnd hfr
    (fun e he => ⟨(entries_ok 509 e he).1, (entries_ok 509 e he).2.1⟩)
    (by rw [entries_length]; decide)
  have hlen2 : (putAll tg64 emptyTable (entries 509)).uLength = 509 := by
    rw [hlen, entries_length]
    rfl
  have hfresh : lookup tg64 (putAll tg64 emptyTable (entries 509)) (keyOf 509) = none :=
    (contains_eq_zero_iff _ _ _).1 fullTable_facts.2.2.2
  have hI509 : Inv tg64 (putAll tg64 emptyTable (entries 509)) := putAll_inv tg64 _ _ hI0
  have hR : Reachable tg64 (putAll tg64 emptyTable (entries 509)) := fullTable_facts.1
  have h1 := overfull_step tg64 _ (keyOf 509) 510 hI509 hidx hlen2 hfresh
  have h2 : Reachable tg64 (SymTable_put tg64 (putAll tg64 emptyTable (entries 509))
      (keyOf 509) 510 allocGrowFails).2 := Reachable.put _ _ _ hR
  unfold overfullTable
  rw [putAll_concat]
  exact ⟨h2, h1⟩

theorem growth_transparency_witness :
    (((entries 510).map (fun e => e.1)).Nodup ∧ (entries 510).length = 510 ∧
      (putAll tg64 emptyTable (entries 510)).uBucketCount = 1021 ∧
      SymTable_contains tg64 (putAll tg64 emptyTable (entries 510)) (keyOf 0) = 1 ∧
      SymTable_get tg64 (putAll tg64 emptyTable (entries 510)) (keyOf 0) = 1 ∧
      SymTable_contains tg64 (putAll tg64 emptyTable (entries 510)) (keyOf 509) = 1 ∧
      SymTable_get tg64 (putAll tg64 emptyTable (entries 510)) (keyOf 509) = 510) ∧
    (Reachable tg64 overfullTable ∧ overfullTable.uBucketCount = 509 ∧
      (SymTableHash_maybeGrow tg64 overfullTable true).uBucketCount = 1021 ∧
      SymTable_getLength (SymTableHash_maybeGrow tg64 overfullTable true) =
        SymTable_getLength overfullTable ∧
      ∀ k : Key,
        SymTable_get tg64 (SymTableHash_maybeGrow tg64 overfullTable true) k =
          SymTable_get tg64 overfullTable k ∧
        SymTable_contains tg64 (SymTableHash_maybeGrow tg64 overfullTable true) k =
          SymTable_contains tg64 overfullTable k) :=
  have hnd := entries_nodup 510 (by decide)
  have h0 := (growth_transparency tg64).1 emptyTable (entries 510) rfl hnd
    (keyOf 0, 0 + 1, allocOk) (List.mem_map.2 ⟨0, List.mem_range.2 (by decide), rfl⟩) rfl rfl
  have h509 := (growth_transparency tg64).1 emptyTable (entries 510) rfl hnd
    (keyOf 509, 509 + 1, allocOk) (List.mem_map.2 ⟨509, List.mem_range.2 (by decide), rfl⟩)
    rfl rfl
  have hg := (growth_transparency tg64).2 overfullTable true overfullTable_facts.1
  ⟨⟨hnd, entries_length 510,
      ((putAll_fresh_tiers tg64 emptyTable (entries 510) rfl hnd (entries_ok 510)).2
        (entries_length 510)).1,
      h0.1, h0.2, h509.1, h509.2⟩,
    ⟨overfullTable_facts.1, overfullTable_facts.2.1, overfullTable_facts.2.2.2, hg.1, hg.2⟩⟩

/-- Every reachable table has a history in the sense of `ReachableSince`. -/
theorem reachable_has_history (tg : Target) (T : SymTable) (h : Reachable tg T) :
    ∃ recent : List Key, ReachableSince tg T recent := by
  induction h with
  | new hnew => exact ⟨[], ReachableSince.new hnew⟩
  | put k v al _ ih =>
    obtain ⟨o, ho⟩ := ih
    exact ⟨_, ReachableSince.put k v al ho⟩
  | replace k v _ ih =>
    obtain ⟨o, ho⟩ := ih
    exact ⟨_, ReachableSince.replace k v ho⟩
  | remove k _ ih =>
    obtain ⟨o, ho⟩ := ih
    exact ⟨_, ReachableSince.remove k ho⟩

theorem chainTable_history : ReachableSince tg64 chainTable [keyD, keyC, keyA] :=
  @ReachableSince.put tg64 (SymTable_put tg64 tableA keyC 6 allocOk).2 [keyC, keyA] keyD 7
    allocOk
    (@ReachableSince.put tg64 tableA [keyA] keyC 6 allocOk
      (@ReachableSince.put tg64 emptyTable [] keyA 5 allocOk
        (@ReachableSince.new tg64 emptyTable rfl)))

set_option maxRecDepth 8000 in
theorem traversal_order_witness :
    (ReachableSince tg64 chainTable [keyD, keyC, keyA] ∧
      (chainTable.ppBuckets.getD 97 []).map Binding.pcKey = [keyD, keyC, keyA] ∧
      [keyD, keyC, keyA].filter
        (fun k => decide (SymTable_hash tg64 k chainTable.uBucketCount = 97)) =
          [keyD, keyC, keyA] ∧
      SymTable_map chainTable recordCall 0 [] = [(keyD, 7, 0), (keyC, 6, 0), (keyA, 5, 0)] ∧
      SymTable_map chainTable recordCall 0 [] =
        (List.range chainTable.uBucketCount).flatMap
          (fun i => (chainTable.ppBuckets.getD i []).map (fun b => (b.pcKey, b.pvValue, 0))) ∧
      ∃ older : List Key, (chainTable.ppBuckets.getD 97 []).map Binding.pcKey =
        [keyD, keyC, keyA].filter
          (fun k => decide (SymTable_hash tg64 k chainTable.uBucketCount = 97)) ++ older) ∧
    (Reachable tg64 overfullTable ∧
      (SymTableHash_maybeGrow tg64 overfullTable true).uBucketCount ≠
        overfullTable.uBucketCount ∧
      ∀ j : Nat, (SymTableHash_maybeGrow tg64 overfullTable true).ppBuckets.getD j [] =
        ((SymTable_bindings overfullTable).filter (fun b => decide
          (SymTable_hash tg64 b.pcKey
            (SymTableHash_maybeGrow tg64 overfullTable true).uBucketCount = j))).reverse) :=
  have h := traversal_order tg64 chainTable [keyD, keyC, keyA] chainTable_history
  have hne : (SymTableHash_maybeGrow tg64 overfullTable true).uBucketCount ≠
      overfullTable.uBucketCount := by
    rw [overfullTable_facts.2.2.2, overfullTable_facts.2.1]
    decide
  ⟨⟨chainTable_history, by decide, by decide, by decide, h.1 0, h.2.1 97⟩,
    ⟨overfullTable_facts.1, hne,
      (reachable_has_history tg64 overfullTable overfullTable_facts.1).elim
        (fun recent hrec j => (traversal_order tg64 overfullTable recent hrec).2.2 true j hne)⟩⟩

end SymTableHash
